import Mathlib

set_option maxHeartbeats 1000000

/-!
Shallow embedding of the linked-list engine of
`src/dsa-visualizer/js/linkedlist.js`, together with the input
validation of its visualizer binding, and proofs of the specification
claims about them.

The JS heap is modelled as an arena (`List Node`); node references
(`this.head`, `node.next`, `node.prev`) are `Option Nat` indices into
the arena, with `none` playing the role of `null`.  `new Node(data)`
appends a fresh cell at index `arena.length`.  The `while` loops of the
source walk `next` pointers and are modelled with an explicit fuel
argument; the fuel passed by the operations is at least the arena size,
which (as proved below) is enough for every list reachable by the
public operations, so the fuel-exhaustion branches are unreachable
there (on a cyclic heap the corresponding JS loop would not terminate
at all).
-/

/-- A payload value of the list engine.  The visualizer always stores
strings, but `LinkedList.search` compares with JS loose equality `==`,
under which numeric strings and numbers compare equal, so the payload
domain is modelled as strings plus integer numbers. -/
inductive JSVal where
  | str : String → JSVal
  | num : Int → JSVal
deriving DecidableEq

/-- Modelled from JS `String.prototype.trim` (and Lean's `String.trim`),
computed over the character list so that it evaluates by kernel
reduction: strip leading and trailing whitespace. -/
def jsTrim (s : String) : String :=
  ⟨((s.data.dropWhile Char.isWhitespace).reverse.dropWhile Char.isWhitespace).reverse⟩

/-- The value of a non-empty all-digit character list, `none` otherwise. -/
def decDigits? (cs : List Char) : Option Nat :=
  if cs.isEmpty then none
  else if cs.all Char.isDigit then
    some (cs.foldl (fun acc c => acc * 10 + (c.toNat - '0'.toNat)) 0)
  else none

/-- Modelled from the JS `ToNumber` coercion, restricted to integer
numerals: whitespace is trimmed, the empty string converts to `0`,
signed decimal integer numerals convert to their value, anything else
yields no number (`NaN`). -/
def jsToNumber (s : String) : Option Int :=
  match (jsTrim s).data with
  | [] => some 0
  | '-' :: rest => (decDigits? rest).map (fun n => -(n : Int))
  | '+' :: rest => (decDigits? rest).map (fun n => (n : Int))
  | cs => (decDigits? cs).map (fun n => (n : Int))

/-- Modelled from JS loose equality `==` (the comparison used by
`LinkedList.search`) on the payload domain: same-type comparisons are
strict, and a string compared with a number is coerced through
`ToNumber`. -/
def looseEq : JSVal → JSVal → Bool
  | .str a, .str b => a == b
  | .num a, .num b => a == b
  | .str a, .num b => jsToNumber a == some b
  | .num a, .str b => some a == jsToNumber b

/-- Source `class Node`: a `data` payload and `next`/`prev`
references (both initialised to `null` by the constructor), modelled as
arena indices. -/
structure Node where
  data : JSVal
  next : Option Nat
  prev : Option Nat
deriving DecidableEq

/-- Write to one heap cell: replace the node at index `i` by `f` of it
(identity when `i` is not an allocated cell). -/
def modifyNode (arena : List Node) (i : Nat) (f : Node → Node) : List Node :=
  match arena[i]? with
  | some nd => arena.set i (f nd)
  | none => arena

/-- Read the `next` field of the node at index `i` (outer `none` when
the cell is unallocated). -/
def nextOf (arena : List Node) (i : Nat) : Option (Option Nat) :=
  (arena[i]?).map Node.next

/-- Read the `prev` field of the node at index `i`. -/
def prevOf (arena : List Node) (i : Nat) : Option (Option Nat) :=
  (arena[i]?).map Node.prev

/-- Read the `data` field of the node at index `i`. -/
def dataOf (arena : List Node) (i : Nat) : Option JSVal :=
  (arena[i]?).map Node.data

/-- The value stored at index `i`; the default is never reached on
indices of a well-formed chain. -/
def valOf (arena : List Node) (i : Nat) : JSVal :=
  (dataOf arena i).getD (JSVal.str "")

/-- The value sequence along a list of arena indices. -/
def valsOf (arena : List Node) (ids : List Nat) : List JSVal :=
  ids.map (valOf arena)

/-- Fuel-based transcription of `while (current.next) current = current.next;`
(the traversal of `insertAtEnd`): returns the index of the last node of
the chain starting at `i`, or `none` if the fuel runs out or a reference
dangles. -/
def walkToLast (arena : List Node) : Nat → Nat → Option Nat
  | 0, _ => none
  | fuel + 1, i =>
    match arena[i]? with
    | none => none
    | some nd =>
      match nd.next with
      | none => some i
      | some j => walkToLast arena fuel j

/-- Fuel-based transcription of
`while (current && index < position - 1) { current = current.next; index++; }`
(the position walk of `insertAtPosition` and `deleteAtPosition`): returns
`some c` where `c` is the final value of `current` (`none` = JS `null`),
or `none` if the fuel runs out or a reference dangles. -/
def walkPos (arena : List Node) : Nat → Option Nat → Int → Int → Option (Option Nat)
  | _, none, _, _ => some none
  | 0, some i, index, position =>
    if index < position - 1 then none else some (some i)
  | fuel + 1, some i, index, position =>
    if index < position - 1 then
      match arena[i]? with
      | none => none
      | some nd => walkPos arena fuel nd.next (index + 1) position
    else some (some i)

/-- Fuel-based transcription of
`while (current.next.next) current = current.next;` (the traversal of
`deleteFromEnd`): returns the index of the second-to-last node. -/
def walkToSecondLast (arena : List Node) : Nat → Nat → Option Nat
  | 0, _ => none
  | fuel + 1, i =>
    match arena[i]? with
    | none => none
    | some nd =>
      match nd.next with
      | none => none
      | some j =>
        match arena[j]? with
        | none => none
        | some jn =>
          match jn.next with
          | none => some i
          | some _ => walkToSecondLast arena fuel j

/-- Source `class LinkedList`: a heap of nodes, the `head`
reference, and the `isDoubly` mode flag fixed at construction. -/
structure LinkedList where
  arena : List Node
  head : Option Nat
  isDoubly : Bool
deriving DecidableEq

/-- Constructor `new LinkedList(isDoubly)`: empty heap, `head = null`. -/
def LinkedList.empty (isDoubly : Bool) : LinkedList :=
  ⟨[], none, isDoubly⟩

/-- Source `insertAtBeginning(data)`: allocate a node, point it at the old
head (`newNode.next = this.head` in both branches of the source), in
doubly mode set the old head's back-reference, and make it the head. -/
def LinkedList.insertAtBeginning (l : LinkedList) (data : JSVal) : LinkedList :=
  let nid := l.arena.length
  let arena1 := l.arena ++ [⟨data, l.head, none⟩]
  let arena2 :=
    if l.isDoubly then
      match l.head with
      | some h => modifyNode arena1 h (fun nd => { nd with prev := some nid })
      | none => arena1
    else arena1
  { l with arena := arena2, head := some nid }

/-- Source `insertAtEnd(data)`: allocate a node; if the list is empty it
becomes the head, otherwise walk to the last node, link it forward and
(in doubly mode) the new node backward. -/
def LinkedList.insertAtEnd (l : LinkedList) (data : JSVal) : LinkedList :=
  let nid := l.arena.length
  let arena1 := l.arena ++ [⟨data, none, none⟩]
  match l.head with
  | none => { l with arena := arena1, head := some nid }
  | some h =>
    match walkToLast arena1 arena1.length h with
    | none => { l with arena := arena1 }
    | some last =>
      let arena2 := modifyNode arena1 last (fun nd => { nd with next := some nid })
      let arena3 :=
        if l.isDoubly then
          modifyNode arena2 nid (fun nd => { nd with prev := some last })
        else arena2
      { l with arena := arena3 }

/-- Source `insertAtPosition(data, position)`: position `0` delegates to
`insertAtBeginning`; otherwise allocate a node, walk toward index
`position - 1`, and if `current` is `null` return without inserting
(silently — the allocated node stays unreachable), else splice the new
node in after `current`, updating `prev` references in doubly mode. -/
def LinkedList.insertAtPosition (l : LinkedList) (data : JSVal) (position : Int) : LinkedList :=
  if position = 0 then l.insertAtBeginning data
  else
    let nid := l.arena.length
    let arena1 := l.arena ++ [⟨data, none, none⟩]
    match walkPos arena1 arena1.length l.head 0 position with
    | none => { l with arena := arena1 }
    | some none => { l with arena := arena1 }
    | some (some cur) =>
      match arena1[cur]? with
      | none => { l with arena := arena1 }
      | some curNode =>
        let arena2 := modifyNode arena1 nid (fun nd => { nd with next := curNode.next })
        let arena3 := modifyNode arena2 cur (fun nd => { nd with next := some nid })
        if l.isDoubly then
          let arena4 :=
            match curNode.next with
            | some sx => modifyNode arena3 sx (fun nd => { nd with prev := some nid })
            | none => arena3
          let arena5 := modifyNode arena4 nid (fun nd => { nd with prev := some cur })
          { l with arena := arena5 }
        else { l with arena := arena3 }

/-- Source `deleteFromBeginning()`: `null` on an empty list; otherwise advance
`head` to its successor, clear the successor's back-reference in doubly
mode, and return the removed value. -/
def LinkedList.deleteFromBeginning (l : LinkedList) : Option JSVal × LinkedList :=
  match l.head with
  | none => (none, l)
  | some h =>
    match l.arena[h]? with
    | none => (none, l)
    | some hnode =>
      let arena1 :=
        if l.isDoubly then
          match hnode.next with
          | some nh => modifyNode l.arena nh (fun nd => { nd with prev := none })
          | none => l.arena
        else l.arena
      (some hnode.data, { l with arena := arena1, head := hnode.next })

/-- Source `deleteFromEnd()`: `null` on an empty list; a single node clears the
head; otherwise walk to the second-to-last node, cut its forward link
(and the removed node's back-reference in doubly mode), and return the
removed value. -/
def LinkedList.deleteFromEnd (l : LinkedList) : Option JSVal × LinkedList :=
  match l.head with
  | none => (none, l)
  | some h =>
    match l.arena[h]? with
    | none => (none, l)
    | some hnode =>
      match hnode.next with
      | none => (some hnode.data, { l with head := none })
      | some _ =>
        match walkToSecondLast l.arena l.arena.length h with
        | none => (none, l)
        | some cur =>
          match l.arena[cur]? with
          | none => (none, l)
          | some curNode =>
            match curNode.next with
            | none => (none, l)
            | some del =>
              match l.arena[del]? with
              | none => (none, l)
              | some delNode =>
                let arena1 := modifyNode l.arena cur (fun nd => { nd with next := none })
                let arena2 :=
                  if l.isDoubly then
                    modifyNode arena1 del (fun nd => { nd with prev := none })
                  else arena1
                (some delNode.data, { l with arena := arena2 })

/-- Source `deleteAtPosition(position)`: position `0` delegates to
`deleteFromBeginning`; otherwise walk toward index `position - 1`, and
if `current` or `current.next` is `null` return `null` unchanged, else
splice `current.next` out (updating the successor's back-reference in
doubly mode) and return its value. -/
def LinkedList.deleteAtPosition (l : LinkedList) (position : Int) : Option JSVal × LinkedList :=
  if position = 0 then l.deleteFromBeginning
  else
    match walkPos l.arena l.arena.length l.head 0 position with
    | none => (none, l)
    | some none => (none, l)
    | some (some cur) =>
      match l.arena[cur]? with
      | none => (none, l)
      | some curNode =>
        match curNode.next with
        | none => (none, l)
        | some del =>
          match l.arena[del]? with
          | none => (none, l)
          | some delNode =>
            let arena1 := modifyNode l.arena cur (fun nd => { nd with next := delNode.next })
            let arena2 :=
              if l.isDoubly then
                match delNode.next with
                | some sx => modifyNode arena1 sx (fun nd => { nd with prev := some cur })
                | none => arena1
              else arena1
            (some delNode.data, { l with arena := arena2 })

/-- Fuel-based transcription of the scan loop of `search(data)`:
`position` counts up from its starting value, and the position of the
first node whose data is loosely equal to `data` is returned, else
`-1`. -/
def searchAux (arena : List Node) (data : JSVal) : Nat → Option Nat → Int → Int
  | _, none, _ => -1
  | 0, some _, _ => -1
  | fuel + 1, some i, position =>
    match arena[i]? with
    | none => -1
    | some nd =>
      if looseEq nd.data data then position
      else searchAux arena data fuel nd.next (position + 1)

/-- Source `search(data)`: linear scan from the head comparing with loose
equality; 0-based position of the first match, or `-1`. -/
def LinkedList.search (l : LinkedList) (data : JSVal) : Int :=
  searchAux l.arena data (l.arena.length + 1) l.head 0

/-- Fuel-based transcription of the collection loop of `toArray()`. -/
def toArrayAux (arena : List Node) : Nat → Option Nat → List JSVal
  | _, none => []
  | 0, some _ => []
  | fuel + 1, some i =>
    match arena[i]? with
    | none => []
    | some nd => nd.data :: toArrayAux arena fuel nd.next

/-- Source `toArray()`: the ordered value sequence from head to tail. -/
def LinkedList.toArray (l : LinkedList) : List JSVal :=
  toArrayAux l.arena (l.arena.length + 1) l.head

/-- One engine operation, for stating properties over operation
sequences.  Positions are the non-negative indices of the engine's
public contract. -/
inductive Op where
  | insertAtBeginning (v : JSVal)
  | insertAtEnd (v : JSVal)
  | insertAtPosition (v : JSVal) (p : Nat)
  | deleteFromBeginning
  | deleteFromEnd
  | deleteAtPosition (p : Nat)

/-- Apply one operation to the engine (return values of deletes are
dropped). -/
def applyOp (l : LinkedList) : Op → LinkedList
  | .insertAtBeginning v => l.insertAtBeginning v
  | .insertAtEnd v => l.insertAtEnd v
  | .insertAtPosition v p => l.insertAtPosition v (p : Int)
  | .deleteFromBeginning => l.deleteFromBeginning.2
  | .deleteFromEnd => l.deleteFromEnd.2
  | .deleteAtPosition p => (l.deleteAtPosition (p : Int)).2

/-- Run a sequence of operations on an initially empty list. -/
def runOps (isDoubly : Bool) (ops : List Op) : LinkedList :=
  ops.foldl applyOp (LinkedList.empty isDoubly)

/-- Reference array-based model of `insertAtPosition`, following the
spec's words: position `0` prepends; otherwise, if the node at index
`position - 1` does not exist the operation is a silent no-op, else the
value is spliced in at index `position`. -/
def refInsertAtPosition (a : List JSVal) (v : JSVal) (p : Nat) : List JSVal :=
  if p ≤ a.length then a.take p ++ v :: a.drop p else a

/-- Reference array-based model of `deleteAtPosition`, following the
spec's words: position `0` removes the first element; otherwise, if the
node at index `position - 1` or its successor does not exist the
operation is a no-op, else the element at index `position` is removed. -/
def refDeleteAtPosition (a : List JSVal) (p : Nat) : List JSVal :=
  if p < a.length then a.take p ++ a.drop (p + 1) else a

/-- One step of the reference array-based model, following the spec's
description of each operation on value sequences. -/
def refApplyOp (a : List JSVal) : Op → List JSVal
  | .insertAtBeginning v => v :: a
  | .insertAtEnd v => a ++ [v]
  | .insertAtPosition v p => refInsertAtPosition a v p
  | .deleteFromBeginning => a.tail
  | .deleteFromEnd => a.dropLast
  | .deleteAtPosition p => refDeleteAtPosition a p

/-- Run a sequence of operations on the reference array-based model,
starting from the empty sequence. -/
def refRun (ops : List Op) : List JSVal :=
  ops.foldl refApplyOp []

/-- The 0-based position of the first element loosely equal to `v`, or
`-1`: the specification of `search` on value sequences. -/
def specSearch : List JSVal → JSVal → Int
  | [], _ => -1
  | x :: xs, v =>
    if looseEq x v then 0
    else if specSearch xs v = -1 then -1 else specSearch xs v + 1

/-- Predicate stating that `current` points at the chain of arena indices `ids`: empty chain
iff `current` is `null`, and each node's `next` goes to the rest of the
chain.  This is the reachable node chain of the list. -/
inductive Chain (arena : List Node) : Option Nat → List Nat → Prop
  | nil : Chain arena none []
  | cons {i : Nat} {nx : Option Nat} {rest : List Nat} :
      nextOf arena i = some nx → Chain arena nx rest → Chain arena (some i) (i :: rest)

/-- Back-reference correctness along a chain of indices: the first
node's `prev` is `null`, and each later node's `prev` points at its
predecessor in the chain. -/
def PrevOk (arena : List Node) (ids : List Nat) : Prop :=
  (∀ h, ids.head? = some h → prevOf arena h = some none) ∧
  ∀ k a b, ids[k]? = some a → ids[k + 1]? = some b →
    prevOf arena b = some (some a)

/-- Well-formedness of an engine state: `ids` is the acyclic chain of
nodes reachable from `head`, and in doubly mode the back-references
along it are correct. -/
structure WF (l : LinkedList) (ids : List Nat) : Prop where
  chain : Chain l.arena l.head ids
  nodup : ids.Nodup
  prevOk : l.isDoubly = true → PrevOk l.arena ids

/-- Modelled from the JS `parseInt` builtin (radix 10), used by the
visualizer binding: skip leading whitespace, read an optional sign and
a decimal digit prefix; no digits means `NaN`, modelled as `none`. -/
def jsParseInt (s : String) : Option Int :=
  let cs := s.toList.dropWhile Char.isWhitespace
  let signAndRest : Int × List Char :=
    match cs with
    | '-' :: r => (-1, r)
    | '+' :: r => (1, r)
    | r => (1, r)
  let ds := signAndRest.2.takeWhile Char.isDigit
  if ds.isEmpty then none
  else some (signAndRest.1 * (ds.foldl (fun acc c => acc * 10 + (c.toNat - '0'.toNat)) 0 : Nat))

/-- Handler `LinkedListVisualizer.insertAtBeginning`: trim the value field,
abort with a notice (`true`) when blank, else call the engine.  DOM
rendering and field clearing are projected out; the returned flag
records whether the validation notice fired and the action was
aborted. -/
def LinkedListVisualizer.insertAtBeginning (l : LinkedList) (rawValue : String) :
    LinkedList × Bool :=
  let value := jsTrim rawValue
  if value = "" then (l, true)
  else (l.insertAtBeginning (.str value), false)

/-- Handler `LinkedListVisualizer.insertAtEnd`: same validation as insert at
beginning. -/
def LinkedListVisualizer.insertAtEnd (l : LinkedList) (rawValue : String) :
    LinkedList × Bool :=
  let value := jsTrim rawValue
  if value = "" then (l, true)
  else (l.insertAtEnd (.str value), false)

/-- Handler `LinkedListVisualizer.insertAtPosition`: abort with a notice when
the trimmed value is blank or the position does not parse
(`value === '' || isNaN(position)`), else call the engine. -/
def LinkedListVisualizer.insertAtPosition (l : LinkedList) (rawValue rawPos : String) :
    LinkedList × Bool :=
  let value := jsTrim rawValue
  if value = "" then (l, true)
  else
    match jsParseInt rawPos with
    | none => (l, true)
    | some p => (l.insertAtPosition (.str value) p, false)

/-- Handler `LinkedListVisualizer.deleteAtPosition`: abort with a notice when
the position does not parse, else call the engine (the engine's own
`null` result is reported separately and leaves the state unchanged). -/
def LinkedListVisualizer.deleteAtPosition (l : LinkedList) (rawPos : String) :
    LinkedList × Bool :=
  match jsParseInt rawPos with
  | none => (l, true)
  | some p => ((l.deleteAtPosition p).2, false)

/-- Handler `LinkedListVisualizer.search`: abort with a notice when the trimmed
value is blank; the engine list is never replaced (search only reads
it). -/
def LinkedListVisualizer.search (l : LinkedList) (rawValue : String) :
    LinkedList × Bool :=
  let value := jsTrim rawValue
  if value = "" then (l, true)
  else (l, false)

/-! ### Pointwise heap lemmas -/

theorem getElem?_modifyNode (arena : List Node) (j : Nat) (f : Node → Node) (i : Nat) :
    (modifyNode arena j f)[i]? = if i = j then (arena[j]?).map f else arena[i]? := by
  rcases h : arena[j]? with _ | nd <;> simp only [modifyNode, h]
  · by_cases he : i = j
    · subst he; simp [h]
    · simp [he]
  · have hj : j < arena.length := (List.getElem?_eq_some.mp h).1
    rw [List.getElem?_set]
    by_cases he : i = j
    · subst he; simp [hj, h]
    · rw [if_neg (fun hc => he hc.symm), if_neg he]

theorem length_modifyNode (arena : List Node) (j : Nat) (f : Node → Node) :
    (modifyNode arena j f).length = arena.length := by
  rcases h : arena[j]? with _ | nd <;> simp only [modifyNode, h] <;> simp

theorem nextOf_modify_prev (arena : List Node) (j : Nat) (p : Option Nat) (i : Nat) :
    nextOf (modifyNode arena j (fun nd => { nd with prev := p })) i = nextOf arena i := by
  unfold nextOf
  rw [getElem?_modifyNode]
  by_cases he : i = j
  · subst he; cases arena[i]? <;> simp
  · simp [he]

theorem prevOf_modify_next (arena : List Node) (j : Nat) (x : Option Nat) (i : Nat) :
    prevOf (modifyNode arena j (fun nd => { nd with next := x })) i = prevOf arena i := by
  unfold prevOf
  rw [getElem?_modifyNode]
  by_cases he : i = j
  · subst he; cases arena[i]? <;> simp
  · simp [he]

theorem dataOf_modify_next (arena : List Node) (j : Nat) (x : Option Nat) (i : Nat) :
    dataOf (modifyNode arena j (fun nd => { nd with next := x })) i = dataOf arena i := by
  unfold dataOf
  rw [getElem?_modifyNode]
  by_cases he : i = j
  · subst he; cases arena[i]? <;> simp
  · simp [he]

theorem dataOf_modify_prev (arena : List Node) (j : Nat) (p : Option Nat) (i : Nat) :
    dataOf (modifyNode arena j (fun nd => { nd with prev := p })) i = dataOf arena i := by
  unfold dataOf
  rw [getElem?_modifyNode]
  by_cases he : i = j
  · subst he; cases arena[i]? <;> simp
  · simp [he]

theorem nextOf_modify_next_self {arena : List Node} {j : Nat} (x : Option Nat)
    (h : j < arena.length) :
    nextOf (modifyNode arena j (fun nd => { nd with next := x })) j = some x := by
  unfold nextOf
  rw [getElem?_modifyNode, if_pos rfl, List.getElem?_eq_getElem h]
  simp

theorem nextOf_modify_next_other {arena : List Node} {j i : Nat} (x : Option Nat)
    (h : i ≠ j) :
    nextOf (modifyNode arena j (fun nd => { nd with next := x })) i = nextOf arena i := by
  unfold nextOf
  rw [getElem?_modifyNode]
  simp [h]

theorem prevOf_modify_prev_self {arena : List Node} {j : Nat} (p : Option Nat)
    (h : j < arena.length) :
    prevOf (modifyNode arena j (fun nd => { nd with prev := p })) j = some p := by
  unfold prevOf
  rw [getElem?_modifyNode, if_pos rfl, List.getElem?_eq_getElem h]
  simp

theorem prevOf_modify_prev_other {arena : List Node} {j i : Nat} (p : Option Nat)
    (h : i ≠ j) :
    prevOf (modifyNode arena j (fun nd => { nd with prev := p })) i = prevOf arena i := by
  unfold prevOf
  rw [getElem?_modifyNode]
  simp [h]

theorem nextOf_append (arena : List Node) (x : Node) (i : Nat) :
    nextOf (arena ++ [x]) i = if i = arena.length then some x.next else nextOf arena i := by
  unfold nextOf
  rcases lt_trichotomy i arena.length with h | h | h
  · rw [List.getElem?_append_left h]; simp [Nat.ne_of_lt h]
  · subst h; rw [List.getElem?_concat_length]; simp
  · rw [List.getElem?_append_right (Nat.le_of_lt h)]
    have h1 : arena.length ≤ i := Nat.le_of_lt h
    have h2 : ([x] : List Node)[i - arena.length]? = none :=
      List.getElem?_eq_none (by simp; omega)
    rw [h2, List.getElem?_eq_none h1]
    simp [Nat.ne_of_gt h]

theorem prevOf_append (arena : List Node) (x : Node) (i : Nat) :
    prevOf (arena ++ [x]) i = if i = arena.length then some x.prev else prevOf arena i := by
  unfold prevOf
  rcases lt_trichotomy i arena.length with h | h | h
  · rw [List.getElem?_append_left h]; simp [Nat.ne_of_lt h]
  · subst h; rw [List.getElem?_concat_length]; simp
  · rw [List.getElem?_append_right (Nat.le_of_lt h)]
    have h2 : ([x] : List Node)[i - arena.length]? = none :=
      List.getElem?_eq_none (by simp; omega)
    rw [h2, List.getElem?_eq_none (Nat.le_of_lt h)]
    simp [Nat.ne_of_gt h]

theorem dataOf_append (arena : List Node) (x : Node) (i : Nat) :
    dataOf (arena ++ [x]) i = if i = arena.length then some x.data else dataOf arena i := by
  unfold dataOf
  rcases lt_trichotomy i arena.length with h | h | h
  · rw [List.getElem?_append_left h]; simp [Nat.ne_of_lt h]
  · subst h; rw [List.getElem?_concat_length]; simp
  · rw [List.getElem?_append_right (Nat.le_of_lt h)]
    have h2 : ([x] : List Node)[i - arena.length]? = none :=
      List.getElem?_eq_none (by simp; omega)
    rw [h2, List.getElem?_eq_none (Nat.le_of_lt h)]
    simp [Nat.ne_of_gt h]

/-! ### Chain lemmas -/

theorem nextOf_eq_some {arena : List Node} {i : Nat} {nx : Option Nat}
    (h : nextOf arena i = some nx) : ∃ nd, arena[i]? = some nd ∧ nd.next = nx := by
  unfold nextOf at h
  rcases Option.map_eq_some'.mp h with ⟨nd, h1, h2⟩
  exact ⟨nd, h1, h2⟩

theorem chain_lt {arena : List Node} {c : Option Nat} {ids : List Nat}
    (h : Chain arena c ids) : ∀ i ∈ ids, i < arena.length := by
  induction h with
  | nil => intro i hi; cases hi
  | cons hn hr ih =>
    intro x hx
    rcases List.mem_cons.mp hx with he | hm
    · subst he
      rcases nextOf_eq_some hn with ⟨nd, h1, _⟩
      exact (List.getElem?_eq_some.mp h1).1
    · exact ih x hm

theorem chain_none {arena : List Node} {ids : List Nat}
    (h : Chain arena none ids) : ids = [] := by
  cases h; rfl

theorem chain_some {arena : List Node} {i : Nat} {ids : List Nat}
    (h : Chain arena (some i) ids) :
    ∃ nx rest, ids = i :: rest ∧ nextOf arena i = some nx ∧ Chain arena nx rest := by
  cases h with
  | cons hn hr => exact ⟨_, _, rfl, hn, hr⟩

theorem chain_head {arena : List Node} {c : Option Nat} {ids : List Nat}
    (h : Chain arena c ids) : c = ids[0]? := by
  cases h <;> simp

theorem chain_next {arena : List Node} {c : Option Nat} {ids : List Nat}
    (h : Chain arena c ids) :
    ∀ k i, ids[k]? = some i → nextOf arena i = some ids[k + 1]? := by
  induction h with
  | nil => intro k i hk; simp at hk
  | cons hn hr ih =>
    intro k i' hk
    cases k with
    | zero =>
      simp at hk
      subst hk
      rw [hn, chain_head hr]
      simp
    | succ k =>
      simp only [List.getElem?_cons_succ] at hk ⊢
      exact ih k i' hk

theorem chain_of_index {arena : List Node} {c : Option Nat} {ids : List Nat}
    (hc : c = ids[0]?)
    (hn : ∀ k i, ids[k]? = some i → nextOf arena i = some ids[k + 1]?) :
    Chain arena c ids := by
  induction ids generalizing c with
  | nil => simp at hc; subst hc; exact Chain.nil
  | cons i rest ih =>
    simp at hc
    subst hc
    refine Chain.cons ?_ (ih rfl ?_)
    · have := hn 0 i (by simp)
      simpa using this
    · intro k i' hk
      have := hn (k + 1) i' (by simpa using hk)
      simpa using this

theorem nodup_getElem?_inj {ids : List Nat} (hn : ids.Nodup) {k m a : Nat}
    (hk : ids[k]? = some a) (hm : ids[m]? = some a) : k = m :=
  List.getElem?_inj (List.getElem?_eq_some.mp hk).1 hn (hk.trans hm.symm)

theorem chain_length_le {arena : List Node} {c : Option Nat} {ids : List Nat}
    (h : Chain arena c ids) (hnd : ids.Nodup) : ids.length ≤ arena.length := by
  classical
  have h1 : ids.toFinset.card = ids.length := List.toFinset_card_of_nodup hnd
  have h2 : ids.toFinset ⊆ Finset.range arena.length := by
    intro x hx
    exact Finset.mem_range.mpr (chain_lt h x (List.mem_toFinset.mp hx))
  calc ids.length = ids.toFinset.card := h1.symm
    _ ≤ (Finset.range arena.length).card := Finset.card_le_card h2
    _ = arena.length := Finset.card_range _

/-- The pointwise frame lemma for chains: a heap change that preserves
`nextOf` on the chain's nodes preserves the chain. -/
theorem chain_frame {arena arena' : List Node} {c : Option Nat} {ids : List Nat}
    (hfr : ∀ i ∈ ids, nextOf arena' i = nextOf arena i)
    (h : Chain arena c ids) : Chain arena' c ids := by
  induction h with
  | nil => exact Chain.nil
  | cons hn hr ih =>
    refine Chain.cons ?_ (ih ?_)
    · rw [hfr _ (List.mem_cons_self _ _)]; exact hn
    · intro i hi; exact hfr i (List.mem_cons_of_mem _ hi)

theorem vals_frame {arena arena' : List Node} {ids : List Nat}
    (hfr : ∀ i ∈ ids, dataOf arena' i = dataOf arena i) :
    valsOf arena' ids = valsOf arena ids := by
  unfold valsOf
  exact List.map_congr_left fun i hi => by unfold valOf; rw [hfr i hi]

theorem toArrayAux_eq {arena : List Node} {c : Option Nat} {ids : List Nat}
    (h : Chain arena c ids) :
    ∀ fuel, ids.length ≤ fuel → toArrayAux arena fuel c = valsOf arena ids := by
  induction h with
  | nil => intro fuel _; cases fuel <;> rfl
  | cons hn hr ih =>
    intro fuel hf
    cases fuel with
    | zero => simp at hf
    | succ f =>
      rcases nextOf_eq_some hn with ⟨nd, h1, h2⟩
      simp only [toArrayAux, h1, h2]
      rw [ih f (by simpa using hf)]
      unfold valsOf valOf dataOf
      simp [h1]

theorem toArray_eq {l : LinkedList} {ids : List Nat} (h : WF l ids) :
    l.toArray = valsOf l.arena ids :=
  toArrayAux_eq h.chain _ (Nat.le_succ_of_le (chain_length_le h.chain h.nodup))

theorem length_toArray_eq {l : LinkedList} {ids : List Nat} (h : WF l ids) :
    l.toArray.length = ids.length := by
  rw [toArray_eq h]; simp [valsOf]

/-! ### Walk lemmas: the fuel-based loops computed on a chain -/

theorem walkToLast_eq {arena : List Node} :
    ∀ (ids : List Nat) (i : Nat) (fuel : Nat), Chain arena (some i) ids →
      ids.length ≤ fuel → walkToLast arena fuel i = ids.getLast? := by
  intro ids
  induction ids with
  | nil => intro i fuel h _; cases h
  | cons x rest ih =>
    intro i fuel h hf
    rcases chain_some h with ⟨nx, rest', heq, hn, hr⟩
    injection heq with h1 h2
    subst h1; subst h2
    cases fuel with
    | zero => simp at hf
    | succ f =>
      rcases nextOf_eq_some hn with ⟨nd, hnd1, hnd2⟩
      cases nx with
      | none =>
        have : rest = [] := chain_none hr
        subst this
        simp [walkToLast, hnd1, hnd2]
      | some j =>
        rcases chain_some hr with ⟨nx2, rest2, heq2, _, _⟩
        subst heq2
        simp only [walkToLast, hnd1, hnd2]
        rw [ih j f hr (by simp at hf ⊢; omega)]
        simp

theorem walkPos_eq {arena : List Node} :
    ∀ (ids : List Nat) (c : Option Nat) (fuel : Nat) (index position : Int),
      Chain arena c ids → ids.length ≤ fuel →
      walkPos arena fuel c index position =
        some (ids[(position - 1 - index).toNat]?) := by
  intro ids
  induction ids with
  | nil =>
    intro c fuel index position h _
    have hc : c = none := by rw [chain_head h]; rfl
    subst hc
    cases fuel <;> simp [walkPos]
  | cons x rest ih =>
    intro c fuel index position h hf
    have hc : c = some x := by rw [chain_head h]; simp
    subst hc
    rcases chain_some h with ⟨nx, rest', heq, hn, hr⟩
    injection heq with h1 h2
    subst h2
    by_cases hlt : index < position - 1
    · cases fuel with
      | zero => simp at hf
      | succ f =>
        rcases nextOf_eq_some hn with ⟨nd, hnd1, hnd2⟩
        simp only [walkPos, if_pos hlt, hnd1, hnd2]
        rw [ih nx f (index + 1) position hr (by simp at hf ⊢; omega)]
        have hk : (position - 1 - index).toNat = (position - 1 - (index + 1)).toNat + 1 := by
          omega
        rw [hk]
        simp
    · have hk : (position - 1 - index).toNat = 0 := by omega
      rw [hk]
      cases fuel <;> simp [walkPos, hlt]

theorem walkToSecondLast_eq {arena : List Node} :
    ∀ (ids : List Nat) (i : Nat) (fuel : Nat), Chain arena (some i) ids →
      2 ≤ ids.length → ids.length ≤ fuel →
      walkToSecondLast arena fuel i = ids[ids.length - 2]? := by
  intro ids
  induction ids with
  | nil => intro i fuel h h2 _; cases h
  | cons x rest ih =>
    intro i fuel h h2 hf
    rcases chain_some h with ⟨nx, rest', heq, hn, hr⟩
    injection heq with h1 hrest
    subst h1; subst hrest
    cases fuel with
    | zero => simp at hf
    | succ f =>
      rcases nextOf_eq_some hn with ⟨nd, hnd1, hnd2⟩
      cases rest with
      | nil => simp at h2
      | cons j rest2 =>
        have hnx : nx = some j := by rw [chain_head hr]; simp
        subst hnx
        rcases chain_some hr with ⟨nx2, rest2', heq2, hn2, hr2⟩
        injection heq2 with hj hrest2
        subst hrest2
        rcases nextOf_eq_some hn2 with ⟨jn, hjn1, hjn2⟩
        cases nx2 with
        | none =>
          have : rest2 = [] := chain_none hr2
          subst this
          simp [walkToSecondLast, hnd1, hnd2, hjn1, hjn2]
        | some k =>
          rcases chain_some hr2 with ⟨nx3, rest3, heq3, _, _⟩
          subst heq3
          simp only [walkToSecondLast, hnd1, hnd2, hjn1, hjn2]
          rw [ih j f hr (by simp) (by simp at hf ⊢; omega)]
          have e1 : (j :: k :: rest3).length - 2 = rest3.length := by simp
          have e2 : (x :: j :: k :: rest3).length - 2 = rest3.length + 1 := by simp
          rw [e1, e2, List.getElem?_cons_succ]

theorem specSearch_ge (a : List JSVal) (v : JSVal) : -1 ≤ specSearch a v := by
  induction a with
  | nil => simp [specSearch]
  | cons x xs ih =>
    simp only [specSearch]
    split
    · omega
    · split
      · omega
      · omega

theorem searchAux_eq {arena : List Node} {c : Option Nat} {ids : List Nat}
    (h : Chain arena c ids) :
    ∀ fuel (pos : Int) v, ids.length ≤ fuel →
      searchAux arena v fuel c pos =
        (if specSearch (valsOf arena ids) v = -1 then -1
         else pos + specSearch (valsOf arena ids) v) := by
  induction h with
  | nil => intro fuel pos v _; cases fuel <;> simp [searchAux, specSearch, valsOf]
  | @cons i nx rest hn hr ih =>
    intro fuel pos v hf
    cases fuel with
    | zero => simp at hf
    | succ f =>
      rcases nextOf_eq_some hn with ⟨nd, h1, h2⟩
      have hvals : valsOf arena (i :: rest) = nd.data :: valsOf arena rest := by
        unfold valsOf valOf dataOf
        simp [h1]
      simp only [searchAux, h1, h2, hvals]
      by_cases hq : looseEq nd.data v
      · simp [specSearch, hq]
      · rw [if_neg (by simp [hq])]
        rw [ih f (pos + 1) v (by simp at hf ⊢; omega)]
        simp only [specSearch, if_neg (by simp [hq] : ¬looseEq nd.data v = true)]
        by_cases hs : specSearch (valsOf arena rest) v = -1
        · simp [hs]
        · have hge := specSearch_ge (valsOf arena rest) v
          rw [if_neg hs, if_neg (by omega), if_neg (by omega)]
          omega

theorem search_eq {l : LinkedList} {ids : List Nat} (h : WF l ids) (v : JSVal) :
    l.search v = specSearch (valsOf l.arena ids) v := by
  unfold LinkedList.search
  rw [searchAux_eq h.chain _ 0 v (Nat.le_succ_of_le (chain_length_le h.chain h.nodup))]
  by_cases hs : specSearch (valsOf l.arena ids) v = -1
  · simp [hs]
  · simp [hs]

/-! ### Splice index lemmas and PrevOk helpers -/

theorem head?_mem {α : Type} {l : List α} {a : α} (h : l.head? = some a) : a ∈ l := by
  cases l with
  | nil => simp at h
  | cons x xs =>
    simp at h
    subst h
    exact List.mem_cons_self _ _

theorem get?_insertSplice {α : Type} (l : List α) (x : α) (m j : Nat) (hm : m ≤ l.length) :
    (l.take m ++ x :: l.drop m)[j]? =
      if j < m then l[j]? else if j = m then some x else l[j - 1]? := by
  by_cases h1 : j < m
  · rw [List.getElem?_append_left (by rw [List.length_take]; omega)]
    rw [List.getElem?_take, if_pos h1, if_pos h1]
  · have hlen : (l.take m).length = m := by rw [List.length_take]; omega
    rw [List.getElem?_append_right (by omega), hlen]
    by_cases h2 : j = m
    · subst h2; simp [h1]
    · have h3 : j - m = (j - m - 1) + 1 := by omega
      rw [h3, List.getElem?_cons_succ, List.getElem?_drop]
      rw [if_neg h1, if_neg h2]
      congr 1
      omega

theorem get?_deleteSplice {α : Type} (l : List α) (m j : Nat) :
    (l.take m ++ l.drop (m + 1))[j]? = if j < m then l[j]? else l[j + 1]? := by
  by_cases hm : m ≤ l.length
  · by_cases h1 : j < m
    · rw [List.getElem?_append_left (by rw [List.length_take]; omega)]
      rw [List.getElem?_take, if_pos h1, if_pos h1]
    · have hlen : (l.take m).length = m := by rw [List.length_take]; omega
      rw [List.getElem?_append_right (by omega), hlen, List.getElem?_drop, if_neg h1]
      congr 1
      omega
  · push_neg at hm
    rw [List.take_of_length_le (by omega), List.drop_eq_nil_of_le (by omega)]
    by_cases h1 : j < m
    · simp [if_pos h1]
    · rw [if_neg h1]
      simp only [List.append_nil]
      rw [List.getElem?_eq_none (by omega), List.getElem?_eq_none (by omega)]

theorem prevOk_frame {arena arena' : List Node} {ids : List Nat}
    (hfr : ∀ i ∈ ids, prevOf arena' i = prevOf arena i)
    (h : PrevOk arena ids) : PrevOk arena' ids := by
  obtain ⟨hh, hp⟩ := h
  refine ⟨?_, ?_⟩
  · intro x hx
    rw [hfr x (head?_mem hx)]
    exact hh x hx
  · intro k a b hka hkb
    rw [hfr b (List.mem_iff_getElem?.mpr ⟨k + 1, hkb⟩)]
    exact hp k a b hka hkb

/-! ### Operation simulation lemmas -/


/-- Prepending a fresh node `n` to a chain whose heap is otherwise
unchanged on the chain's nodes. -/
theorem chain_vals_ext {arena0 arena2 : List Node} {c : Option Nat} {ids : List Nat}
    {n : Nat} {v : JSVal}
    (hch : Chain arena0 c ids)
    (hfrn : ∀ i ∈ ids, nextOf arena2 i = nextOf arena0 i)
    (hfrd : ∀ i ∈ ids, dataOf arena2 i = dataOf arena0 i)
    (hn2 : nextOf arena2 n = some c)
    (hd2 : dataOf arena2 n = some v) :
    Chain arena2 (some n) (n :: ids) ∧
      valsOf arena2 (n :: ids) = v :: valsOf arena0 ids := by
  constructor
  · exact Chain.cons hn2 (chain_frame hfrn hch)
  · unfold valsOf
    rw [List.map_cons]
    congr 1
    · unfold valOf
      rw [hd2]
      rfl
    · exact List.map_congr_left fun i hi => by unfold valOf; rw [hfrd i hi]

theorem insertAtBeginning_WF {l : LinkedList} {ids : List Nat} (h : WF l ids) (v : JSVal) :
    WF (l.insertAtBeginning v) (l.arena.length :: ids) ∧
    valsOf (l.insertAtBeginning v).arena (l.arena.length :: ids) =
      v :: valsOf l.arena ids := by
  obtain ⟨hch, hnd, hpv⟩ := h
  obtain ⟨ar, hd0, dbl⟩ := l
  dsimp only at hch hnd hpv ⊢
  have hlt : ∀ i ∈ ids, i < ar.length := chain_lt hch
  have hnodup : (ar.length :: ids).Nodup :=
    List.nodup_cons.mpr ⟨fun hmem => absurd (hlt _ hmem) (lt_irrefl _), hnd⟩
  cases dbl with
  | false =>
    have hres : LinkedList.insertAtBeginning ⟨ar, hd0, false⟩ v =
        ⟨ar ++ [⟨v, hd0, none⟩], some ar.length, false⟩ := by
      simp [LinkedList.insertAtBeginning]
    rw [hres]
    dsimp only
    have hm := @chain_vals_ext ar (ar ++ [⟨v, hd0, none⟩]) hd0 ids ar.length v hch
      (fun i hi => by rw [nextOf_append, if_neg (Nat.ne_of_lt (hlt i hi))])
      (fun i hi => by rw [dataOf_append, if_neg (Nat.ne_of_lt (hlt i hi))])
      (by rw [nextOf_append, if_pos rfl])
      (by rw [dataOf_append, if_pos rfl])
    exact ⟨⟨hm.1, hnodup, fun hdd => by cases hdd⟩, hm.2⟩
  | true =>
    cases hd0 with
    | none =>
      have hids : ids = [] := chain_none hch
      subst hids
      have hres : LinkedList.insertAtBeginning ⟨ar, none, true⟩ v =
          ⟨ar ++ [⟨v, none, none⟩], some ar.length, true⟩ := by
        simp [LinkedList.insertAtBeginning]
      rw [hres]
      dsimp only
      have hm := @chain_vals_ext ar (ar ++ [⟨v, none, none⟩]) none [] ar.length v hch
        (by simp) (by simp)
        (by rw [nextOf_append, if_pos rfl])
        (by rw [dataOf_append, if_pos rfl])
      refine ⟨⟨hm.1, hnodup, fun _ => ⟨?_, ?_⟩⟩, hm.2⟩
      · intro x hx
        simp at hx
        subst hx
        rw [prevOf_append, if_pos rfl]
      · intro k a b hka hkb
        rcases k with _ | k <;> simp at hkb
    | some h0 =>
      have hh0 : h0 ∈ ids := by
        have hc := chain_head hch
        exact List.mem_iff_getElem?.mpr ⟨0, hc.symm⟩
      have hh0n : h0 < ar.length := hlt _ hh0
      have hres : LinkedList.insertAtBeginning ⟨ar, some h0, true⟩ v =
          ⟨modifyNode (ar ++ [⟨v, some h0, none⟩]) h0
              (fun nd => { nd with prev := some ar.length }),
            some ar.length, true⟩ := by
        simp [LinkedList.insertAtBeginning]
      rw [hres]
      dsimp only
      have hm := @chain_vals_ext ar
        (modifyNode (ar ++ [⟨v, some h0, none⟩]) h0
          (fun nd => { nd with prev := some ar.length }))
        (some h0) ids ar.length v hch
        (fun i hi => by
          rw [nextOf_modify_prev, nextOf_append, if_neg (Nat.ne_of_lt (hlt i hi))])
        (fun i hi => by
          rw [dataOf_modify_prev, dataOf_append, if_neg (Nat.ne_of_lt (hlt i hi))])
        (by rw [nextOf_modify_prev, nextOf_append, if_pos rfl])
        (by rw [dataOf_modify_prev, dataOf_append, if_pos rfl])
      refine ⟨⟨hm.1, hnodup, fun _ => ⟨?_, ?_⟩⟩, hm.2⟩
      · intro x hx
        simp at hx
        subst hx
        rw [prevOf_modify_prev_other _ (Nat.ne_of_gt hh0n)]
        rw [prevOf_append, if_pos rfl]
      · intro k a b hka hkb
        rcases k with _ | k
        · simp at hka hkb
          have hb : b = h0 := by
            have hc := chain_head hch
            rw [hkb] at hc
            injection hc.symm
          subst hb
          subst hka
          rw [prevOf_modify_prev_self _ (by simp; omega)]
        · simp only [List.getElem?_cons_succ] at hka hkb
          have hbmem : b ∈ ids := List.mem_iff_getElem?.mpr ⟨k + 1, hkb⟩
          have hbne : b ≠ h0 := by
            intro he
            subst he
            have h00 : ids[0]? = some b := (chain_head hch).symm
            have := nodup_getElem?_inj hnd hkb h00
            omega
          rw [prevOf_modify_prev_other _ hbne]
          rw [prevOf_append, if_neg (Nat.ne_of_lt (hlt b hbmem))]
          exact (hpv rfl).2 k a b hka hkb

theorem deleteFromBeginning_WF {l : LinkedList} {ids : List Nat} (h : WF l ids) :
    (ids = [] → l.deleteFromBeginning = (none, l)) ∧
    (∀ h0 rest, ids = h0 :: rest →
      WF l.deleteFromBeginning.2 rest ∧
      l.deleteFromBeginning.1 = some (valOf l.arena h0) ∧
      valsOf l.deleteFromBeginning.2.arena rest = valsOf l.arena rest) := by
  obtain ⟨hch, hnd, hpv⟩ := h
  obtain ⟨ar, hd0, dbl⟩ := l
  dsimp only at hch hnd hpv ⊢
  constructor
  · intro hids
    subst hids
    have hc : hd0 = none := by simpa using chain_head hch
    subst hc
    rfl
  · intro h0 rest hids
    subst hids
    have hc : hd0 = some h0 := by simpa using chain_head hch
    subst hc
    rcases chain_some hch with ⟨nx, rest', heq, hn, hr⟩
    injection heq with h1 h2
    subst h2
    rcases nextOf_eq_some hn with ⟨hnode, hh1, hh2⟩
    have hval : valOf ar h0 = hnode.data := by
      unfold valOf dataOf
      rw [hh1]
      rfl
    cases dbl with
    | false =>
      have hres : LinkedList.deleteFromBeginning ⟨ar, some h0, false⟩ =
          (some hnode.data, ⟨ar, hnode.next, false⟩) := by
        simp [LinkedList.deleteFromBeginning, hh1]
      rw [hres]
      dsimp only
      refine ⟨⟨?_, hnd.of_cons, fun hdd => by cases hdd⟩, by rw [hval], rfl⟩
      rw [hh2]
      exact hr
    | true =>
      cases hnx : hnode.next with
      | none =>
        have hnxx : nx = none := by rw [← hh2, hnx]
        subst hnxx
        have hrest : rest = [] := chain_none hr
        subst hrest
        have hres : LinkedList.deleteFromBeginning ⟨ar, some h0, true⟩ =
            (some hnode.data, ⟨ar, none, true⟩) := by
          simp [LinkedList.deleteFromBeginning, hh1, hnx]
        rw [hres]
        dsimp only
        refine ⟨⟨Chain.nil, List.nodup_nil, fun _ => ⟨?_, ?_⟩⟩, by rw [hval], rfl⟩
        · intro x hx; simp at hx
        · intro k a b hka hkb; simp at hka
      | some nh =>
        have hnxx : nx = some nh := by rw [← hh2, hnx]
        subst hnxx
        have hres : LinkedList.deleteFromBeginning ⟨ar, some h0, true⟩ =
            (some hnode.data,
              ⟨modifyNode ar nh (fun nd => { nd with prev := none }), some nh, true⟩) := by
          simp [LinkedList.deleteFromBeginning, hh1, hnx]
        rw [hres]
        dsimp only
        have hnh0 : rest[0]? = some nh := by
          have := chain_head hr
          exact this.symm
        have hnhlt : nh < ar.length := chain_lt hch nh
          (List.mem_cons_of_mem _ (List.mem_iff_getElem?.mpr ⟨0, hnh0⟩))
        refine ⟨⟨?_, hnd.of_cons, fun _ => ⟨?_, ?_⟩⟩, by rw [hval], ?_⟩
        · exact chain_frame (fun i _ => nextOf_modify_prev _ _ _ _) hr
        · intro x hx
          have hx0 : rest[0]? = some x := by
            cases rest with
            | nil => simp at hx
            | cons y ys => simpa using hx
          have hxnh : x = nh := by
            rw [hx0] at hnh0
            injection hnh0
          subst hxnh
          rw [prevOf_modify_prev_self _ hnhlt]
        · intro k a b hka hkb
          have hbne : b ≠ nh := by
            intro he
            subst he
            have := nodup_getElem?_inj hnd.of_cons hkb hnh0
            omega
          rw [prevOf_modify_prev_other _ hbne]
          exact (hpv rfl).2 (k + 1) a b (by simpa using hka) (by simpa using hkb)
        · exact vals_frame fun i _ => dataOf_modify_prev _ _ _ _

theorem head?_eq_zero {α : Type} (l : List α) : l.head? = l[0]? := by
  cases l <;> simp

theorem insertAtEnd_WF {l : LinkedList} {ids : List Nat} (h : WF l ids) (v : JSVal) :
    WF (l.insertAtEnd v) (ids ++ [l.arena.length]) ∧
    valsOf (l.insertAtEnd v).arena (ids ++ [l.arena.length]) =
      valsOf l.arena ids ++ [v] := by
  obtain ⟨hch, hnd, hpv⟩ := h
  obtain ⟨ar, hd0, dbl⟩ := l
  dsimp only at hch hnd hpv ⊢
  have hlt : ∀ i ∈ ids, i < ar.length := chain_lt hch
  have hnodup : (ids ++ [ar.length]).Nodup := by
    rw [List.nodup_append]
    refine ⟨hnd, List.nodup_singleton _, ?_⟩
    intro x hx hx1
    simp at hx1
    subst hx1
    exact absurd (hlt _ hx) (lt_irrefl _)
  cases hd0 with
  | none =>
    have hids : ids = [] := chain_none hch
    subst hids
    have hres : LinkedList.insertAtEnd ⟨ar, none, dbl⟩ v =
        ⟨ar ++ [⟨v, none, none⟩], some ar.length, dbl⟩ := by
      simp [LinkedList.insertAtEnd]
    rw [hres]
    dsimp only
    refine ⟨⟨Chain.cons ?_ Chain.nil, by simpa using hnodup, fun _ => ⟨?_, ?_⟩⟩, ?_⟩
    · rw [nextOf_append, if_pos rfl]
    · intro x hx
      simp at hx
      subst hx
      rw [prevOf_append, if_pos rfl]
    · intro k a b hka hkb
      rcases k with _ | k <;> simp at hkb
    · simp [valsOf, valOf]
      rw [dataOf_append, if_pos rfl]
      rfl
  | some h0 =>
    have hne : ids ≠ [] := by
      intro he
      subst he
      have := chain_head hch
      simp at this
    have hlen0 : 0 < ids.length := List.length_pos.mpr hne
    have hlen1 : ids.length - 1 < ids.length := by omega
    obtain ⟨last, hlast⟩ : ∃ x, ids[ids.length - 1]? = some x := by
      rw [List.getElem?_eq_getElem hlen1]
      exact ⟨_, rfl⟩
    have hlastmem : last ∈ ids := List.mem_iff_getElem?.mpr ⟨_, hlast⟩
    have hlastlt : last < ar.length := hlt _ hlastmem
    have hfr1 : ∀ i ∈ ids, nextOf (ar ++ [⟨v, none, none⟩]) i = nextOf ar i :=
      fun i hi => by rw [nextOf_append, if_neg (Nat.ne_of_lt (hlt i hi))]
    have hch1 : Chain (ar ++ [⟨v, none, none⟩]) (some h0) ids := chain_frame hfr1 hch
    have hfuel : ids.length ≤ ar.length + 1 := by
      have := chain_length_le hch hnd
      omega
    have hwalk : walkToLast (ar ++ [⟨v, none, none⟩]) (ar.length + 1) h0 = some last := by
      rw [walkToLast_eq ids h0 _ hch1 hfuel, List.getLast?_eq_getElem?, hlast]
    have hmain : ∀ arena3 : List Node,
        (∀ i ∈ ids, i ≠ last → nextOf arena3 i = nextOf ar i) →
        nextOf arena3 last = some (some ar.length) →
        nextOf arena3 ar.length = some none →
        (∀ i ∈ ids, dataOf arena3 i = dataOf ar i) →
        dataOf arena3 ar.length = some v →
        Chain arena3 (some h0) (ids ++ [ar.length]) ∧
          valsOf arena3 (ids ++ [ar.length]) = valsOf ar ids ++ [v] := by
      intro arena3 hfrn hlastn hnn hfrd hdn
      constructor
      · apply chain_of_index
        · rw [List.getElem?_append_left hlen0]
          exact chain_head hch
        · intro k i hk
          by_cases hkl : k < ids.length
          · rw [List.getElem?_append_left hkl] at hk
            by_cases hk1 : k = ids.length - 1
            · subst hk1
              have hi : i = last := by
                rw [hk] at hlast
                injection hlast
              subst hi
              rw [hlastn]
              congr 1
              rw [show ids.length - 1 + 1 = ids.length from by omega,
                List.getElem?_concat_length]
            · have hine : i ≠ last := by
                intro he
                subst he
                exact hk1 (nodup_getElem?_inj hnd hk hlast)
              rw [hfrn i (List.mem_iff_getElem?.mpr ⟨k, hk⟩) hine]
              rw [chain_next hch k i hk]
              congr 1
              rw [List.getElem?_append_left (by omega)]
          · rw [List.getElem?_append_right (Nat.le_of_not_lt hkl)] at hk
            have hk0 : k - ids.length = 0 := by
              by_contra hne0
              rw [List.getElem?_eq_none (by simp; omega)] at hk
              exact absurd hk (by simp)
            rw [hk0] at hk
            simp at hk
            subst hk
            have hkeq : k = ids.length := by omega
            subst hkeq
            rw [hnn]
            congr 1
            rw [List.getElem?_eq_none (by simp)]
      · unfold valsOf
        rw [List.map_append]
        congr 1
        · exact List.map_congr_left fun i hi => by unfold valOf; rw [hfrd i hi]
        · simp [valOf, hdn]
    cases dbl with
    | false =>
      have hres : LinkedList.insertAtEnd ⟨ar, some h0, false⟩ v =
          ⟨modifyNode (ar ++ [⟨v, none, none⟩]) last
              (fun nd => { nd with next := some ar.length }), some h0, false⟩ := by
        simp [LinkedList.insertAtEnd, hwalk]
      rw [hres]
      dsimp only
      have hm := hmain
        (modifyNode (ar ++ [⟨v, none, none⟩]) last
          (fun nd => { nd with next := some ar.length }))
        (fun i hi hine => by
          rw [nextOf_modify_next_other _ hine, nextOf_append,
            if_neg (Nat.ne_of_lt (hlt i hi))])
        (nextOf_modify_next_self _ (by simp; omega))
        (by
          rw [nextOf_modify_next_other _ (Nat.ne_of_gt hlastlt), nextOf_append, if_pos rfl])
        (fun i hi => by
          rw [dataOf_modify_next, dataOf_append, if_neg (Nat.ne_of_lt (hlt i hi))])
        (by rw [dataOf_modify_next, dataOf_append, if_pos rfl])
      exact ⟨⟨hm.1, hnodup, fun hdd => by cases hdd⟩, hm.2⟩
    | true =>
      have hres : LinkedList.insertAtEnd ⟨ar, some h0, true⟩ v =
          ⟨modifyNode
              (modifyNode (ar ++ [⟨v, none, none⟩]) last
                (fun nd => { nd with next := some ar.length }))
              ar.length (fun nd => { nd with prev := some last }),
            some h0, true⟩ := by
        simp [LinkedList.insertAtEnd, hwalk]
      rw [hres]
      dsimp only
      have hm := hmain
        (modifyNode
          (modifyNode (ar ++ [⟨v, none, none⟩]) last
            (fun nd => { nd with next := some ar.length }))
          ar.length (fun nd => { nd with prev := some last }))
        (fun i hi hine => by
          rw [nextOf_modify_prev, nextOf_modify_next_other _ hine, nextOf_append,
            if_neg (Nat.ne_of_lt (hlt i hi))])
        (by rw [nextOf_modify_prev]; exact nextOf_modify_next_self _ (by simp; omega))
        (by
          rw [nextOf_modify_prev, nextOf_modify_next_other _ (Nat.ne_of_gt hlastlt),
            nextOf_append, if_pos rfl])
        (fun i hi => by
          rw [dataOf_modify_prev, dataOf_modify_next, dataOf_append,
            if_neg (Nat.ne_of_lt (hlt i hi))])
        (by rw [dataOf_modify_prev, dataOf_modify_next, dataOf_append, if_pos rfl])
      refine ⟨⟨hm.1, hnodup, fun _ => ⟨?_, ?_⟩⟩, hm.2⟩
      · intro x hx
        rw [head?_eq_zero, List.getElem?_append_left hlen0] at hx
        have hx0 : x = h0 := by
          have hc := chain_head hch
          rw [hx] at hc
          injection hc.symm
        subst hx0
        have hxlt : x < ar.length := hlt _ (List.mem_iff_getElem?.mpr ⟨0, (chain_head hch).symm⟩)
        rw [prevOf_modify_prev_other _ (Nat.ne_of_lt hxlt), prevOf_modify_next,
          prevOf_append, if_neg (Nat.ne_of_lt hxlt)]
        exact (hpv rfl).1 x (by rw [head?_eq_zero]; exact (chain_head hch).symm)
      · intro k a b hka hkb
        by_cases hkb1 : k + 1 < ids.length
        · rw [List.getElem?_append_left hkb1] at hkb
          rw [List.getElem?_append_left (by omega)] at hka
          have hbmem : b ∈ ids := List.mem_iff_getElem?.mpr ⟨k + 1, hkb⟩
          have hblt : b < ar.length := hlt _ hbmem
          rw [prevOf_modify_prev_other _ (Nat.ne_of_lt hblt), prevOf_modify_next,
            prevOf_append, if_neg (Nat.ne_of_lt hblt)]
          exact (hpv rfl).2 k a b hka hkb
        · rw [List.getElem?_append_right (Nat.le_of_not_lt hkb1)] at hkb
          have hk0 : k + 1 - ids.length = 0 := by
            by_contra hne0
            rw [List.getElem?_eq_none (by simp; omega)] at hkb
            exact absurd hkb (by simp)
          rw [hk0] at hkb
          simp at hkb
          subst hkb
          have hkeq : k = ids.length - 1 := by omega
          subst hkeq
          rw [List.getElem?_append_left hlen1] at hka
          have ha : a = last := by
            rw [hka] at hlast
            injection hlast
          subst ha
          rw [prevOf_modify_prev_self _ (by simp [length_modifyNode])]

theorem nodup_insertSplice {α : Type} {l : List α} {x : α} (m : Nat) (hnd : l.Nodup)
    (hx : x ∉ l) : (l.take m ++ x :: l.drop m).Nodup := by
  have h1 := hnd
  rw [← List.take_append_drop m l, List.nodup_append] at h1
  obtain ⟨ht, hd, hdisj⟩ := h1
  rw [List.nodup_append]
  refine ⟨ht, List.nodup_cons.mpr ⟨fun hc => hx ?_, hd⟩, ?_⟩
  · rw [← List.take_append_drop m l]
    exact List.mem_append_right _ hc
  · intro a ha hc
    rcases List.mem_cons.mp hc with he | hmem
    · subst he
      exact hx (by rw [← List.take_append_drop m l]; exact List.mem_append_left _ ha)
    · exact hdisj ha hmem

theorem insertAtPosition_WF {l : LinkedList} {ids : List Nat} (h : WF l ids)
    (v : JSVal) (p : Int) (hp : p ≠ 0) :
    (ids[(p - 1).toNat]? = none →
      (l.insertAtPosition v p).head = l.head ∧
      WF (l.insertAtPosition v p) ids ∧
      valsOf (l.insertAtPosition v p).arena ids = valsOf l.arena ids) ∧
    (∀ cur, ids[(p - 1).toNat]? = some cur →
      WF (l.insertAtPosition v p)
        (ids.take ((p - 1).toNat + 1) ++ l.arena.length :: ids.drop ((p - 1).toNat + 1)) ∧
      valsOf (l.insertAtPosition v p).arena
          (ids.take ((p - 1).toNat + 1) ++ l.arena.length :: ids.drop ((p - 1).toNat + 1)) =
        (valsOf l.arena ids).take ((p - 1).toNat + 1) ++
          v :: (valsOf l.arena ids).drop ((p - 1).toNat + 1)) := by
  obtain ⟨hch, hnd, hpv⟩ := h
  obtain ⟨ar, hd0, dbl⟩ := l
  dsimp only at hch hnd hpv ⊢
  set k := (p - 1).toNat with hkdef
  have hlt : ∀ i ∈ ids, i < ar.length := chain_lt hch
  have hfr1 : ∀ i ∈ ids, nextOf (ar ++ [⟨v, none, none⟩]) i = nextOf ar i :=
    fun i hi => by rw [nextOf_append, if_neg (Nat.ne_of_lt (hlt i hi))]
  have hch1 : Chain (ar ++ [⟨v, none, none⟩]) hd0 ids := chain_frame hfr1 hch
  have hfuel : ids.length ≤ ar.length + 1 := by
    have := chain_length_le hch hnd
    omega
  have hwalk0 : walkPos (ar ++ [⟨v, none, none⟩]) (ar.length + 1) hd0 0 p =
      some ids[k]? := by
    rw [walkPos_eq ids hd0 _ 0 p hch1 hfuel]
    have he : p - 1 - 0 = p - 1 := by ring
    rw [he]
  constructor
  · intro hnone
    rw [hnone] at hwalk0
    have hres : LinkedList.insertAtPosition ⟨ar, hd0, dbl⟩ v p =
        ⟨ar ++ [⟨v, none, none⟩], hd0, dbl⟩ := by
      simp [LinkedList.insertAtPosition, hp, hwalk0]
    rw [hres]
    dsimp only
    refine ⟨rfl, ⟨hch1, hnd, fun hdd => prevOk_frame ?_ (hpv hdd)⟩, vals_frame ?_⟩
    · intro i hi
      rw [prevOf_append, if_neg (Nat.ne_of_lt (hlt i hi))]
    · intro i hi
      rw [dataOf_append, if_neg (Nat.ne_of_lt (hlt i hi))]
  · intro cur hcur
    rw [hcur] at hwalk0
    have hklen : k < ids.length := (List.getElem?_eq_some.mp hcur).1
    have hcurmem : cur ∈ ids := List.mem_iff_getElem?.mpr ⟨k, hcur⟩
    have hcurlt : cur < ar.length := hlt _ hcurmem
    have hnext_cur1 : nextOf (ar ++ [⟨v, none, none⟩]) cur = some ids[k + 1]? := by
      rw [hfr1 cur hcurmem]
      exact chain_next hch k cur hcur
    rcases nextOf_eq_some hnext_cur1 with ⟨curNode, hcn, hcnx⟩
    set m := k + 1 with hmdef
    have hmle : m ≤ ids.length := hklen
    have hsp : ∀ j, (ids.take m ++ ar.length :: ids.drop m)[j]? =
        if j < m then ids[j]? else if j = m then some ar.length else ids[j - 1]? :=
      fun j => get?_insertSplice ids ar.length m j hmle
    have hnodup' : (ids.take m ++ ar.length :: ids.drop m).Nodup :=
      nodup_insertSplice m hnd (fun hmem => absurd (hlt _ hmem) (lt_irrefl _))
    have hmain : ∀ A : List Node,
        nextOf A cur = some (some ar.length) →
        nextOf A ar.length = some ids[m]? →
        (∀ i ∈ ids, i ≠ cur → nextOf A i = nextOf ar i) →
        (∀ i ∈ ids, dataOf A i = dataOf ar i) →
        dataOf A ar.length = some v →
        Chain A hd0 (ids.take m ++ ar.length :: ids.drop m) ∧
          valsOf A (ids.take m ++ ar.length :: ids.drop m) =
            (valsOf ar ids).take m ++ v :: (valsOf ar ids).drop m := by
      intro A hAcur hAn hAfr hAd hAdn
      constructor
      · apply chain_of_index
        · rw [hsp 0, if_pos (by omega)]
          exact chain_head hch
        · intro j i hj
          rw [hsp j] at hj
          by_cases h1 : j < m
          · rw [if_pos h1] at hj
            by_cases h2 : j = k
            · subst h2
              have hic : cur = i := by
                rw [hcur] at hj
                injection hj
              subst hic
              rw [hAcur, hsp (k + 1), if_neg (by omega), if_pos (by omega)]
            · have hine : i ≠ cur := by
                intro he
                subst he
                exact h2 (nodup_getElem?_inj hnd hj hcur)
              have himem : i ∈ ids := List.mem_iff_getElem?.mpr ⟨j, hj⟩
              rw [hAfr i himem hine, chain_next hch j i hj]
              rw [hsp (j + 1), if_pos (by omega)]
          · rw [if_neg h1] at hj
            by_cases h2 : j = m
            · rw [if_pos h2] at hj
              have hie : ar.length = i := by injection hj
              subst hie
              rw [hAn, hsp (j + 1), if_neg (by omega), if_neg (by omega)]
              have he : j + 1 - 1 = m := by omega
              rw [he]
            · rw [if_neg h2] at hj
              have himem : i ∈ ids := List.mem_iff_getElem?.mpr ⟨j - 1, hj⟩
              have hine : i ≠ cur := by
                intro he
                subst he
                have := nodup_getElem?_inj hnd hj hcur
                omega
              rw [hAfr i himem hine, chain_next hch (j - 1) i hj]
              rw [hsp (j + 1), if_neg (by omega), if_neg (by omega)]
              have he : j + 1 - 1 = j - 1 + 1 := by omega
              rw [he]
      · unfold valsOf
        rw [List.map_append, List.map_cons, ← List.map_take, ← List.map_drop]
        congr 1
        · exact List.map_congr_left fun i hi => by
            unfold valOf
            rw [hAd i (List.mem_of_mem_take hi)]
        · congr 1
          · unfold valOf
            rw [hAdn]
            rfl
          · exact List.map_congr_left fun i hi => by
              unfold valOf
              rw [hAd i (List.mem_of_mem_drop hi)]
    have hprevMain : ∀ A : List Node,
        prevOf A ar.length = some (some cur) →
        (∀ sx, ids[m]? = some sx → prevOf A sx = some (some ar.length)) →
        (∀ i ∈ ids, (∀ sx, ids[m]? = some sx → i ≠ sx) → prevOf A i = prevOf ar i) →
        PrevOk ar ids →
        PrevOk A (ids.take m ++ ar.length :: ids.drop m) := by
      intro A hAn hAsx hAfr hold
      constructor
      · intro x hx
        rw [head?_eq_zero, hsp 0, if_pos (by omega)] at hx
        have hxmem : x ∈ ids := List.mem_iff_getElem?.mpr ⟨0, hx⟩
        have hxne : ∀ sx, ids[m]? = some sx → x ≠ sx := by
          intro sx hs he
          subst he
          have := nodup_getElem?_inj hnd hx hs
          omega
        rw [hAfr x hxmem hxne]
        exact hold.1 x (by rw [head?_eq_zero]; exact hx)
      · intro j a b hja hjb
        rw [hsp j] at hja
        rw [hsp (j + 1)] at hjb
        by_cases h1 : j + 1 < m
        · rw [if_pos h1] at hjb
          rw [if_pos (by omega)] at hja
          have hbmem : b ∈ ids := List.mem_iff_getElem?.mpr ⟨j + 1, hjb⟩
          have hbne : ∀ sx, ids[m]? = some sx → b ≠ sx := by
            intro sx hs he
            subst he
            have := nodup_getElem?_inj hnd hjb hs
            omega
          rw [hAfr b hbmem hbne]
          exact hold.2 j a b hja hjb
        · by_cases h2 : j + 1 = m
          · rw [if_neg h1, if_pos h2] at hjb
            have hbe : ar.length = b := by injection hjb
            subst hbe
            rw [if_pos (by omega)] at hja
            have hjk : j = k := by omega
            subst hjk
            have hac : cur = a := by
              rw [hcur] at hja
              injection hja
            subst hac
            exact hAn
          · rw [if_neg h1, if_neg h2] at hjb
            by_cases h3 : j = m
            · rw [if_neg (by omega), if_pos h3] at hja
              have hae : ar.length = a := by injection hja
              subst hae
              have hb : ids[m]? = some b := by
                have he : j + 1 - 1 = m := by omega
                rw [he] at hjb
                exact hjb
              exact hAsx b hb
            · rw [if_neg (by omega), if_neg (by omega)] at hja
              have hjb' : ids[j]? = some b := by
                have he : j + 1 - 1 = j := by omega
                rw [he] at hjb
                exact hjb
              have hbmem : b ∈ ids := List.mem_iff_getElem?.mpr ⟨j, hjb'⟩
              have hbne : ∀ sx, ids[m]? = some sx → b ≠ sx := by
                intro sx hs he
                subst he
                have := nodup_getElem?_inj hnd hjb' hs
                omega
              rw [hAfr b hbmem hbne]
              have he : j - 1 + 1 = j := by omega
              exact hold.2 (j - 1) a b hja (by rw [he]; exact hjb')
    cases dbl with
    | false =>
      have hres : LinkedList.insertAtPosition ⟨ar, hd0, false⟩ v p =
          ⟨modifyNode
              (modifyNode (ar ++ [⟨v, none, none⟩]) ar.length
                (fun nd => { nd with next := curNode.next }))
              cur (fun nd => { nd with next := some ar.length }),
            hd0, false⟩ := by
        simp [LinkedList.insertAtPosition, hp, hwalk0, hcn]
      rw [hres]
      dsimp only
      have hm := hmain
        (modifyNode
          (modifyNode (ar ++ [⟨v, none, none⟩]) ar.length
            (fun nd => { nd with next := curNode.next }))
          cur (fun nd => { nd with next := some ar.length }))
        (nextOf_modify_next_self _ (by simp [length_modifyNode]; omega))
        (by
          rw [nextOf_modify_next_other _ (Nat.ne_of_gt hcurlt),
            nextOf_modify_next_self _ (by simp), hcnx])
        (fun i hi hine => by
          rw [nextOf_modify_next_other _ hine,
            nextOf_modify_next_other _ (Nat.ne_of_lt (hlt i hi)), nextOf_append,
            if_neg (Nat.ne_of_lt (hlt i hi))])
        (fun i hi => by
          rw [dataOf_modify_next, dataOf_modify_next, dataOf_append,
            if_neg (Nat.ne_of_lt (hlt i hi))])
        (by rw [dataOf_modify_next, dataOf_modify_next, dataOf_append, if_pos rfl])
      exact ⟨⟨hm.1, hnodup', fun hdd => by cases hdd⟩, hm.2⟩
    | true =>
      cases hsxe : ids[m]? with
      | none =>
        have hcnx' : curNode.next = none := by
          rw [hcnx]
          exact hsxe
        have hres : LinkedList.insertAtPosition ⟨ar, hd0, true⟩ v p =
            ⟨modifyNode
                (modifyNode
                  (modifyNode (ar ++ [⟨v, none, none⟩]) ar.length
                    (fun nd => { nd with next := none }))
                  cur (fun nd => { nd with next := some ar.length }))
                ar.length (fun nd => { nd with prev := some cur }),
              hd0, true⟩ := by
          simp [LinkedList.insertAtPosition, hp, hwalk0, hcn, hcnx']
        rw [hres]
        dsimp only
        have hm := hmain
          (modifyNode
            (modifyNode
              (modifyNode (ar ++ [⟨v, none, none⟩]) ar.length
                (fun nd => { nd with next := none }))
              cur (fun nd => { nd with next := some ar.length }))
            ar.length (fun nd => { nd with prev := some cur }))
          (by
            rw [nextOf_modify_prev]
            exact nextOf_modify_next_self _ (by simp [length_modifyNode]; omega))
          (by
            rw [nextOf_modify_prev, nextOf_modify_next_other _ (Nat.ne_of_gt hcurlt),
              nextOf_modify_next_self _ (by simp), hsxe])
          (fun i hi hine => by
            rw [nextOf_modify_prev, nextOf_modify_next_other _ hine,
              nextOf_modify_next_other _ (Nat.ne_of_lt (hlt i hi)), nextOf_append,
              if_neg (Nat.ne_of_lt (hlt i hi))])
          (fun i hi => by
            rw [dataOf_modify_prev, dataOf_modify_next, dataOf_modify_next, dataOf_append,
              if_neg (Nat.ne_of_lt (hlt i hi))])
          (by
            rw [dataOf_modify_prev, dataOf_modify_next, dataOf_modify_next, dataOf_append,
              if_pos rfl])
        refine ⟨⟨hm.1, hnodup', fun _ => hprevMain _ ?_ ?_ ?_ (hpv rfl)⟩, hm.2⟩
        · exact prevOf_modify_prev_self _ (by simp [length_modifyNode])
        · intro sx hs
          rw [hsxe] at hs
          cases hs
        · intro i hi _
          rw [prevOf_modify_prev_other _ (Nat.ne_of_lt (hlt i hi)), prevOf_modify_next,
            prevOf_modify_next, prevOf_append, if_neg (Nat.ne_of_lt (hlt i hi))]
      | some sx =>
        have hsxmem : sx ∈ ids := List.mem_iff_getElem?.mpr ⟨m, hsxe⟩
        have hsxlt : sx < ar.length := hlt _ hsxmem
        have hcnx' : curNode.next = some sx := by
          rw [hcnx]
          exact hsxe
        have hres : LinkedList.insertAtPosition ⟨ar, hd0, true⟩ v p =
            ⟨modifyNode
                (modifyNode
                  (modifyNode
                    (modifyNode (ar ++ [⟨v, none, none⟩]) ar.length
                      (fun nd => { nd with next := some sx }))
                    cur (fun nd => { nd with next := some ar.length }))
                  sx (fun nd => { nd with prev := some ar.length }))
                ar.length (fun nd => { nd with prev := some cur }),
              hd0, true⟩ := by
          simp [LinkedList.insertAtPosition, hp, hwalk0, hcn, hcnx']
        rw [hres]
        dsimp only
        have hm := hmain
          (modifyNode
            (modifyNode
              (modifyNode
                (modifyNode (ar ++ [⟨v, none, none⟩]) ar.length
                  (fun nd => { nd with next := some sx }))
                cur (fun nd => { nd with next := some ar.length }))
              sx (fun nd => { nd with prev := some ar.length }))
            ar.length (fun nd => { nd with prev := some cur }))
          (by
            rw [nextOf_modify_prev, nextOf_modify_prev]
            exact nextOf_modify_next_self _ (by simp [length_modifyNode]; omega))
          (by
            rw [nextOf_modify_prev, nextOf_modify_prev,
              nextOf_modify_next_other _ (Nat.ne_of_gt hcurlt),
              nextOf_modify_next_self _ (by simp), hsxe])
          (fun i hi hine => by
            rw [nextOf_modify_prev, nextOf_modify_prev, nextOf_modify_next_other _ hine,
              nextOf_modify_next_other _ (Nat.ne_of_lt (hlt i hi)), nextOf_append,
              if_neg (Nat.ne_of_lt (hlt i hi))])
          (fun i hi => by
            rw [dataOf_modify_prev, dataOf_modify_prev, dataOf_modify_next,
              dataOf_modify_next, dataOf_append, if_neg (Nat.ne_of_lt (hlt i hi))])
          (by
            rw [dataOf_modify_prev, dataOf_modify_prev, dataOf_modify_next,
              dataOf_modify_next, dataOf_append, if_pos rfl])
        refine ⟨⟨hm.1, hnodup', fun _ => hprevMain _ ?_ ?_ ?_ (hpv rfl)⟩, hm.2⟩
        · exact prevOf_modify_prev_self _ (by simp [length_modifyNode])
        · intro sx' hs
          rw [hsxe] at hs
          have hse : sx = sx' := by injection hs
          subst hse
          rw [prevOf_modify_prev_other _ (Nat.ne_of_lt hsxlt)]
          exact prevOf_modify_prev_self _ (by simp [length_modifyNode]; omega)
        · intro i hi hisx
          have hisx' : i ≠ sx := hisx sx hsxe
          rw [prevOf_modify_prev_other _ (Nat.ne_of_lt (hlt i hi)),
            prevOf_modify_prev_other _ hisx', prevOf_modify_next, prevOf_modify_next,
            prevOf_append, if_neg (Nat.ne_of_lt (hlt i hi))]

theorem deleteAtPosition_WF {l : LinkedList} {ids : List Nat} (h : WF l ids)
    (p : Int) (hp : p ≠ 0) :
    (ids[(p - 1).toNat + 1]? = none → l.deleteAtPosition p = (none, l)) ∧
    (∀ del, ids[(p - 1).toNat + 1]? = some del →
      (l.deleteAtPosition p).1 = some (valOf l.arena del) ∧
      WF (l.deleteAtPosition p).2
        (ids.take ((p - 1).toNat + 1) ++ ids.drop ((p - 1).toNat + 1 + 1)) ∧
      valsOf (l.deleteAtPosition p).2.arena
          (ids.take ((p - 1).toNat + 1) ++ ids.drop ((p - 1).toNat + 1 + 1)) =
        (valsOf l.arena ids).take ((p - 1).toNat + 1) ++
          (valsOf l.arena ids).drop ((p - 1).toNat + 1 + 1)) := by
  obtain ⟨hch, hnd, hpv⟩ := h
  obtain ⟨ar, hd0, dbl⟩ := l
  dsimp only at hch hnd hpv ⊢
  set k := (p - 1).toNat with hkdef
  set m := k + 1 with hmdef
  have hlt : ∀ i ∈ ids, i < ar.length := chain_lt hch
  have hfuel : ids.length ≤ ar.length := chain_length_le hch hnd
  have hwalk0 : walkPos ar ar.length hd0 0 p = some ids[k]? := by
    rw [walkPos_eq ids hd0 _ 0 p hch hfuel]
    have he : p - 1 - 0 = p - 1 := by ring
    rw [he]
  constructor
  · intro hnone
    cases hcur : ids[k]? with
    | none =>
      rw [hcur] at hwalk0
      simp [LinkedList.deleteAtPosition, hp, hwalk0]
    | some cur =>
      rw [hcur] at hwalk0
      have hcurmem : cur ∈ ids := List.mem_iff_getElem?.mpr ⟨k, hcur⟩
      rcases nextOf_eq_some (chain_next hch k cur hcur) with ⟨curNode, hcn, hcnx⟩
      have hcnx' : curNode.next = none := by rw [hcnx]; exact hnone
      simp [LinkedList.deleteAtPosition, hp, hwalk0, hcn, hcnx']
  · intro del hdel
    have hmlen : m < ids.length := (List.getElem?_eq_some.mp hdel).1
    have hklen : k < ids.length := by omega
    obtain ⟨cur, hcur⟩ : ∃ x, ids[k]? = some x := by
      rw [List.getElem?_eq_getElem hklen]
      exact ⟨_, rfl⟩
    rw [hcur] at hwalk0
    have hcurmem : cur ∈ ids := List.mem_iff_getElem?.mpr ⟨k, hcur⟩
    have hcurlt : cur < ar.length := hlt _ hcurmem
    have hdelmem : del ∈ ids := List.mem_iff_getElem?.mpr ⟨m, hdel⟩
    have hdellt : del < ar.length := hlt _ hdelmem
    rcases nextOf_eq_some (chain_next hch k cur hcur) with ⟨curNode, hcn, hcnx⟩
    have hcnx' : curNode.next = some del := by rw [hcnx]; exact hdel
    rcases nextOf_eq_some (chain_next hch m del hdel) with ⟨delNode, hdn, hdnx⟩
    have hval : valOf ar del = delNode.data := by
      unfold valOf dataOf
      rw [hdn]
      rfl
    have hsp : ∀ j, (ids.take m ++ ids.drop (m + 1))[j]? =
        if j < m then ids[j]? else ids[j + 1]? :=
      fun j => get?_deleteSplice ids m j
    have hnodup' : (ids.take m ++ ids.drop (m + 1)).Nodup := by
      refine List.Nodup.sublist ?_ hnd
      conv_rhs => rw [← List.take_append_drop m ids]
      refine List.Sublist.append_left ?_ _
      rw [List.drop_eq_getElem_cons hmlen]
      exact List.sublist_cons_self _ _
    have hmain : ∀ A : List Node,
        nextOf A cur = some ids[m + 1]? →
        (∀ i ∈ ids, i ≠ cur → nextOf A i = nextOf ar i) →
        (∀ i ∈ ids, dataOf A i = dataOf ar i) →
        Chain A hd0 (ids.take m ++ ids.drop (m + 1)) ∧
          valsOf A (ids.take m ++ ids.drop (m + 1)) =
            (valsOf ar ids).take m ++ (valsOf ar ids).drop (m + 1) := by
      intro A hAcur hAfr hAd
      constructor
      · apply chain_of_index
        · rw [hsp 0, if_pos (by omega)]
          exact chain_head hch
        · intro j i hj
          rw [hsp j] at hj
          by_cases h1 : j < m
          · rw [if_pos h1] at hj
            by_cases h2 : j = k
            · subst h2
              have hic : cur = i := by
                rw [hcur] at hj
                injection hj
              subst hic
              rw [hAcur, hsp (k + 1), if_neg (by omega)]
            · have hine : i ≠ cur := by
                intro he
                subst he
                exact h2 (nodup_getElem?_inj hnd hj hcur)
              have himem : i ∈ ids := List.mem_iff_getElem?.mpr ⟨j, hj⟩
              rw [hAfr i himem hine, chain_next hch j i hj]
              rw [hsp (j + 1), if_pos (by omega)]
          · rw [if_neg h1] at hj
            have himem : i ∈ ids := List.mem_iff_getElem?.mpr ⟨j + 1, hj⟩
            have hine : i ≠ cur := by
              intro he
              subst he
              have := nodup_getElem?_inj hnd hj hcur
              omega
            rw [hAfr i himem hine, chain_next hch (j + 1) i hj]
            rw [hsp (j + 1), if_neg (by omega)]
      · unfold valsOf
        rw [List.map_append, ← List.map_take, ← List.map_drop]
        congr 1
        · exact List.map_congr_left fun i hi => by
            unfold valOf
            rw [hAd i (List.mem_of_mem_take hi)]
        · exact List.map_congr_left fun i hi => by
            unfold valOf
            rw [hAd i (List.mem_of_mem_drop hi)]
    have hprevMain : ∀ A : List Node,
        (∀ sx, ids[m + 1]? = some sx → prevOf A sx = some (some cur)) →
        (∀ i ∈ ids, (∀ sx, ids[m + 1]? = some sx → i ≠ sx) → prevOf A i = prevOf ar i) →
        PrevOk ar ids →
        PrevOk A (ids.take m ++ ids.drop (m + 1)) := by
      intro A hAsx hAfr hold
      constructor
      · intro x hx
        rw [head?_eq_zero, hsp 0, if_pos (by omega)] at hx
        have hxmem : x ∈ ids := List.mem_iff_getElem?.mpr ⟨0, hx⟩
        have hxne : ∀ sx, ids[m + 1]? = some sx → x ≠ sx := by
          intro sx hs he
          subst he
          have := nodup_getElem?_inj hnd hx hs
          omega
        rw [hAfr x hxmem hxne]
        exact hold.1 x (by rw [head?_eq_zero]; exact hx)
      · intro j a b hja hjb
        rw [hsp j] at hja
        rw [hsp (j + 1)] at hjb
        by_cases h1 : j + 1 < m
        · rw [if_pos h1] at hjb
          rw [if_pos (by omega)] at hja
          have hbmem : b ∈ ids := List.mem_iff_getElem?.mpr ⟨j + 1, hjb⟩
          have hbne : ∀ sx, ids[m + 1]? = some sx → b ≠ sx := by
            intro sx hs he
            subst he
            have := nodup_getElem?_inj hnd hjb hs
            omega
          rw [hAfr b hbmem hbne]
          exact hold.2 j a b hja hjb
        · by_cases h2 : j + 1 = m
          · rw [if_neg h1] at hjb
            rw [if_pos (by omega)] at hja
            have hjk : j = k := by omega
            subst hjk
            have hac : cur = a := by
              rw [hcur] at hja
              injection hja
            subst hac
            exact hAsx b hjb
          · rw [if_neg (by omega)] at hjb
            rw [if_neg (by omega)] at hja
            have hbmem : b ∈ ids := List.mem_iff_getElem?.mpr ⟨j + 1 + 1, hjb⟩
            have hbne : ∀ sx, ids[m + 1]? = some sx → b ≠ sx := by
              intro sx hs he
              subst he
              have := nodup_getElem?_inj hnd hjb hs
              omega
            rw [hAfr b hbmem hbne]
            exact hold.2 (j + 1) a b hja hjb
    cases dbl with
    | false =>
      have hres : LinkedList.deleteAtPosition ⟨ar, hd0, false⟩ p =
          (some delNode.data,
            ⟨modifyNode ar cur (fun nd => { nd with next := delNode.next }),
              hd0, false⟩) := by
        simp [LinkedList.deleteAtPosition, hp, hwalk0, hcn, hcnx', hdn]
      rw [hres]
      dsimp only
      have hm := hmain
        (modifyNode ar cur (fun nd => { nd with next := delNode.next }))
        (by rw [nextOf_modify_next_self _ hcurlt, hdnx])
        (fun i hi hine => by rw [nextOf_modify_next_other _ hine])
        (fun i hi => by rw [dataOf_modify_next])
      exact ⟨by rw [hval], ⟨hm.1, hnodup', fun hdd => by cases hdd⟩, hm.2⟩
    | true =>
      cases hsxe : ids[m + 1]? with
      | none =>
        have hdnx' : delNode.next = none := by rw [hdnx]; exact hsxe
        have hres : LinkedList.deleteAtPosition ⟨ar, hd0, true⟩ p =
            (some delNode.data,
              ⟨modifyNode ar cur (fun nd => { nd with next := none }),
                hd0, true⟩) := by
          simp [LinkedList.deleteAtPosition, hp, hwalk0, hcn, hcnx', hdn, hdnx']
        rw [hres]
        dsimp only
        have hm := hmain
          (modifyNode ar cur (fun nd => { nd with next := none }))
          (by rw [nextOf_modify_next_self _ hcurlt, hsxe])
          (fun i hi hine => by rw [nextOf_modify_next_other _ hine])
          (fun i hi => by rw [dataOf_modify_next])
        refine ⟨by rw [hval], ⟨hm.1, hnodup', fun _ => hprevMain _ ?_ ?_ (hpv rfl)⟩, hm.2⟩
        · intro sx hs
          rw [hsxe] at hs
          cases hs
        · intro i hi _
          rw [prevOf_modify_next]
      | some sx =>
        have hsxmem : sx ∈ ids := List.mem_iff_getElem?.mpr ⟨m + 1, hsxe⟩
        have hsxlt : sx < ar.length := hlt _ hsxmem
        have hdnx' : delNode.next = some sx := by rw [hdnx]; exact hsxe
        have hres : LinkedList.deleteAtPosition ⟨ar, hd0, true⟩ p =
            (some delNode.data,
              ⟨modifyNode
                  (modifyNode ar cur (fun nd => { nd with next := some sx }))
                  sx (fun nd => { nd with prev := some cur }),
                hd0, true⟩) := by
          simp [LinkedList.deleteAtPosition, hp, hwalk0, hcn, hcnx', hdn, hdnx']
        rw [hres]
        dsimp only
        have hm := hmain
          (modifyNode (modifyNode ar cur (fun nd => { nd with next := some sx }))
            sx (fun nd => { nd with prev := some cur }))
          (by
            rw [nextOf_modify_prev, nextOf_modify_next_self _ hcurlt, hsxe])
          (fun i hi hine => by
            rw [nextOf_modify_prev, nextOf_modify_next_other _ hine])
          (fun i hi => by rw [dataOf_modify_prev, dataOf_modify_next])
        refine ⟨by rw [hval], ⟨hm.1, hnodup', fun _ => hprevMain _ ?_ ?_ (hpv rfl)⟩, hm.2⟩
        · intro sx' hs
          rw [hsxe] at hs
          have hse : sx = sx' := by injection hs
          subst hse
          exact prevOf_modify_prev_self _ (by simp [length_modifyNode]; omega)
        · intro i hi hisx
          rw [prevOf_modify_prev_other _ (hisx sx hsxe), prevOf_modify_next]

theorem deleteFromEnd_WF {l : LinkedList} {ids : List Nat} (h : WF l ids) :
    (ids = [] → l.deleteFromEnd = (none, l)) ∧
    (ids ≠ [] →
      WF l.deleteFromEnd.2 ids.dropLast ∧
      l.deleteFromEnd.1 = (valsOf l.arena ids).getLast? ∧
      valsOf l.deleteFromEnd.2.arena ids.dropLast = (valsOf l.arena ids).dropLast) := by
  obtain ⟨hch, hnd, hpv⟩ := h
  obtain ⟨ar, hd0, dbl⟩ := l
  dsimp only at hch hnd hpv ⊢
  have hlt : ∀ i ∈ ids, i < ar.length := chain_lt hch
  constructor
  · intro hids
    subst hids
    have hc : hd0 = none := by simpa using chain_head hch
    subst hc
    rfl
  · intro hne
    cases ids with
    | nil => exact absurd rfl hne
    | cons x rest =>
      have hc : hd0 = some x := by simpa using chain_head hch
      subst hc
      rcases chain_some hch with ⟨nx, rest', heq, hn, hr⟩
      injection heq with h1 h2
      subst h2
      rcases nextOf_eq_some hn with ⟨hnode, hn0, hnx0⟩
      have hxval : valOf ar x = hnode.data := by
        unfold valOf dataOf
        rw [hn0]
        rfl
      cases rest with
      | nil =>
        have hnxnone : nx = none := by cases hr; rfl
        have hnx0' : hnode.next = none := hnx0.trans hnxnone
        have hres : LinkedList.deleteFromEnd ⟨ar, some x, dbl⟩ =
            (some hnode.data, ⟨ar, none, dbl⟩) := by
          simp [LinkedList.deleteFromEnd, hn0, hnx0']
        rw [hres]
        dsimp only
        refine ⟨⟨Chain.nil, List.nodup_nil, fun _ => ⟨?_, ?_⟩⟩, ?_, ?_⟩
        · intro y hy; simp at hy
        · intro k a b hka hkb; simp at hka
        · simp [valsOf]
          rw [hxval]
        · simp [valsOf]
      | cons y rest2 =>
        have hy : nx = some y := by
          rw [chain_head hr]
          simp
        subst hy
        have hnx0' : hnode.next = some y := hnx0
        have hlen2 : 2 ≤ (x :: y :: rest2).length := by simp
        have hfuel : (x :: y :: rest2).length ≤ ar.length := chain_length_le hch hnd
        have hwalk0 : walkToSecondLast ar ar.length x =
            (x :: y :: rest2)[(x :: y :: rest2).length - 2]? :=
          walkToSecondLast_eq _ x ar.length hch hlen2 hfuel
        have hidx2 : (x :: y :: rest2).length - 2 < (x :: y :: rest2).length := by
          simp only [List.length_cons]
          omega
        obtain ⟨cur, hcur⟩ : ∃ c, (x :: y :: rest2)[(x :: y :: rest2).length - 2]? = some c := by
          rw [List.getElem?_eq_getElem hidx2]
          exact ⟨_, rfl⟩
        rw [hcur] at hwalk0
        have hcurmem : cur ∈ x :: y :: rest2 := List.mem_iff_getElem?.mpr ⟨_, hcur⟩
        have hcurlt : cur < ar.length := hlt _ hcurmem
        have hnextcur : nextOf ar cur = some (x :: y :: rest2)[(x :: y :: rest2).length - 1]? := by
          have := chain_next hch ((x :: y :: rest2).length - 2) cur hcur
          have he : (x :: y :: rest2).length - 2 + 1 = (x :: y :: rest2).length - 1 := by
            simp only [List.length_cons]
            omega
          rw [he] at this
          exact this
        have hidx1 : (x :: y :: rest2).length - 1 < (x :: y :: rest2).length := by
          simp only [List.length_cons]
          omega
        obtain ⟨del, hdel⟩ : ∃ d, (x :: y :: rest2)[(x :: y :: rest2).length - 1]? = some d := by
          rw [List.getElem?_eq_getElem hidx1]
          exact ⟨_, rfl⟩
        rw [hdel] at hnextcur
        have hdelmem : del ∈ x :: y :: rest2 := List.mem_iff_getElem?.mpr ⟨_, hdel⟩
        have hdellt : del < ar.length := hlt _ hdelmem
        have hdelne : del ≠ cur := by
          intro he
          subst he
          have := nodup_getElem?_inj hnd hdel hcur
          omega
        rcases nextOf_eq_some hnextcur with ⟨curNode, hcn, hcnx⟩
        have hcnx' : curNode.next = some del := hcnx
        have hnextdel : nextOf ar del = some none := by
          have := chain_next hch ((x :: y :: rest2).length - 1) del hdel
          have he : (x :: y :: rest2).length - 1 + 1 = (x :: y :: rest2).length := by
            simp only [List.length_cons]
            omega
          rw [he, List.getElem?_eq_none (le_refl _)] at this
          exact this
        rcases nextOf_eq_some hnextdel with ⟨delNode, hdn, hdnx⟩
        have hdval : valOf ar del = delNode.data := by
          unfold valOf dataOf
          rw [hdn]
          rfl
        have hsp : ∀ j, (x :: y :: rest2).dropLast[j]? =
            if j < (x :: y :: rest2).length - 1 then (x :: y :: rest2)[j]? else none := by
          intro j
          rw [List.dropLast_eq_take, List.getElem?_take]
        have hnodup' : (x :: y :: rest2).dropLast.Nodup :=
          List.Nodup.sublist (List.dropLast_sublist _) hnd
        have hgetlast : (valsOf ar (x :: y :: rest2)).getLast? = some delNode.data := by
          rw [List.getLast?_eq_getElem?]
          unfold valsOf
          rw [List.getElem?_map]
          have he : (List.map (valOf ar) (x :: y :: rest2)).length = (x :: y :: rest2).length := by
            simp
          rw [he, hdel]
          rw [Option.map_some']
          rw [hdval]
        have hmain : ∀ A : List Node,
            nextOf A cur = some none →
            (∀ i ∈ x :: y :: rest2, i ≠ cur → nextOf A i = nextOf ar i) →
            (∀ i ∈ x :: y :: rest2, dataOf A i = dataOf ar i) →
            Chain A (some x) (x :: y :: rest2).dropLast ∧
              valsOf A (x :: y :: rest2).dropLast =
                (valsOf ar (x :: y :: rest2)).dropLast := by
          intro A hAcur hAfr hAd
          constructor
          · apply chain_of_index
            · rw [hsp 0, if_pos (by simp only [List.length_cons]; omega)]
              exact chain_head hch
            · intro j i hj
              rw [hsp j] at hj
              by_cases h1 : j < (x :: y :: rest2).length - 1
              · rw [if_pos h1] at hj
                by_cases h2 : j = (x :: y :: rest2).length - 2
                · subst h2
                  have hic : cur = i := by
                    rw [hcur] at hj
                    injection hj
                  subst hic
                  rw [hAcur, hsp _, if_neg (by simp only [List.length_cons]; omega)]
                · have hine : i ≠ cur := by
                    intro he
                    subst he
                    exact h2 (nodup_getElem?_inj hnd hj hcur)
                  have himem : i ∈ x :: y :: rest2 := List.mem_iff_getElem?.mpr ⟨j, hj⟩
                  rw [hAfr i himem hine, chain_next hch j i hj]
                  rw [hsp (j + 1), if_pos (by simp at h1 h2 ⊢; omega)]
              · rw [if_neg h1] at hj
                cases hj
          · unfold valsOf
            rw [List.dropLast_eq_take, List.dropLast_eq_take, ← List.map_take]
            have he : (List.map (valOf ar) (x :: y :: rest2)).length =
                (x :: y :: rest2).length := by simp
            rw [he]
            exact List.map_congr_left fun i hi => by
              unfold valOf
              rw [hAd i (List.mem_of_mem_take hi)]
        cases dbl with
        | false =>
          have hres : LinkedList.deleteFromEnd ⟨ar, some x, false⟩ =
              (some delNode.data,
                ⟨modifyNode ar cur (fun nd => { nd with next := none }),
                  some x, false⟩) := by
            simp [LinkedList.deleteFromEnd, hn0, hnx0', hwalk0, hcn, hcnx', hdn]
          rw [hres]
          dsimp only
          have hm := hmain (modifyNode ar cur (fun nd => { nd with next := none }))
            (nextOf_modify_next_self _ hcurlt)
            (fun i _ hine => by rw [nextOf_modify_next_other _ hine])
            (fun i _ => by rw [dataOf_modify_next])
          exact ⟨⟨hm.1, hnodup', fun hdd => by cases hdd⟩, by rw [hgetlast], hm.2⟩
        | true =>
          have hres : LinkedList.deleteFromEnd ⟨ar, some x, true⟩ =
              (some delNode.data,
                ⟨modifyNode (modifyNode ar cur (fun nd => { nd with next := none }))
                    del (fun nd => { nd with prev := none }),
                  some x, true⟩) := by
            simp [LinkedList.deleteFromEnd, hn0, hnx0', hwalk0, hcn, hcnx', hdn]
          rw [hres]
          dsimp only
          have hm := hmain
            (modifyNode (modifyNode ar cur (fun nd => { nd with next := none }))
              del (fun nd => { nd with prev := none }))
            (by
              rw [nextOf_modify_prev]
              exact nextOf_modify_next_self _ hcurlt)
            (fun i _ hine => by
              rw [nextOf_modify_prev, nextOf_modify_next_other _ hine])
            (fun i _ => by rw [dataOf_modify_prev, dataOf_modify_next])
          refine ⟨⟨hm.1, hnodup', fun _ => ⟨?_, ?_⟩⟩, by rw [hgetlast], hm.2⟩
          · intro z hz
            rw [head?_eq_zero, hsp 0, if_pos (by simp only [List.length_cons]; omega)] at hz
            have hzmem : z ∈ x :: y :: rest2 := List.mem_iff_getElem?.mpr ⟨0, hz⟩
            have hzne : z ≠ del := by
              intro he
              subst he
              have := nodup_getElem?_inj hnd hz hdel
              omega
            rw [prevOf_modify_prev_other _ hzne, prevOf_modify_next]
            exact (hpv rfl).1 z (by rw [head?_eq_zero]; exact hz)
          · intro j a b hja hjb
            rw [hsp j] at hja
            rw [hsp (j + 1)] at hjb
            by_cases h1 : j + 1 < (x :: y :: rest2).length - 1
            · rw [if_pos h1] at hjb
              rw [if_pos (by omega)] at hja
              have hbne : b ≠ del := by
                intro he
                subst he
                have := nodup_getElem?_inj hnd hjb hdel
                simp at h1 this
                omega
              rw [prevOf_modify_prev_other _ hbne, prevOf_modify_next]
              exact (hpv rfl).2 j a b hja hjb
            · rw [if_neg h1] at hjb
              cases hjb

theorem WF_empty (dbl : Bool) : WF (LinkedList.empty dbl) [] :=
  ⟨Chain.nil, List.nodup_nil,
    fun _ => ⟨fun x hx => by simp at hx, fun k a b hka _ => by simp at hka⟩⟩

theorem isDoubly_deleteFromBeginning (l : LinkedList) :
    l.deleteFromBeginning.2.isDoubly = l.isDoubly := by
  unfold LinkedList.deleteFromBeginning
  dsimp only
  repeat' split
  all_goals rfl

theorem isDoubly_applyOp (l : LinkedList) (op : Op) :
    (applyOp l op).isDoubly = l.isDoubly := by
  cases op with
  | insertAtBeginning v => rfl
  | insertAtEnd v =>
    show (l.insertAtEnd v).isDoubly = l.isDoubly
    unfold LinkedList.insertAtEnd
    dsimp only
    repeat' split
    all_goals rfl
  | insertAtPosition v p =>
    show (l.insertAtPosition v (p : Int)).isDoubly = l.isDoubly
    unfold LinkedList.insertAtPosition
    dsimp only
    repeat' split
    all_goals rfl
  | deleteFromBeginning =>
    exact isDoubly_deleteFromBeginning l
  | deleteFromEnd =>
    show l.deleteFromEnd.2.isDoubly = l.isDoubly
    unfold LinkedList.deleteFromEnd
    dsimp only
    repeat' split
    all_goals rfl
  | deleteAtPosition p =>
    show (l.deleteAtPosition (p : Int)).2.isDoubly = l.isDoubly
    unfold LinkedList.deleteAtPosition
    dsimp only
    repeat' split
    all_goals first
      | rfl
      | exact isDoubly_deleteFromBeginning l

theorem applyOp_WF {l : LinkedList} {ids : List Nat} (h : WF l ids) (op : Op) :
    ∃ ids', WF (applyOp l op) ids' ∧
      valsOf (applyOp l op).arena ids' = refApplyOp (valsOf l.arena ids) op := by
  have hlenv : (valsOf l.arena ids).length = ids.length := by simp [valsOf]
  cases op with
  | insertAtBeginning v =>
    obtain ⟨h1, h2⟩ := insertAtBeginning_WF h v
    exact ⟨_, h1, h2⟩
  | insertAtEnd v =>
    obtain ⟨h1, h2⟩ := insertAtEnd_WF h v
    exact ⟨_, h1, h2⟩
  | insertAtPosition v p =>
    simp only [applyOp, refApplyOp]
    by_cases hp0 : p = 0
    · subst hp0
      have he : l.insertAtPosition v ((0 : Nat) : Int) = l.insertAtBeginning v := by
        simp [LinkedList.insertAtPosition]
      rw [he]
      obtain ⟨h1, h2⟩ := insertAtBeginning_WF h v
      refine ⟨_, h1, ?_⟩
      rw [h2]
      simp [refInsertAtPosition]
    · have hpi : ((p : Nat) : Int) ≠ 0 := by exact_mod_cast hp0
      have hk : (((p : Nat) : Int) - 1).toNat = p - 1 := by omega
      obtain ⟨hnoop, hins⟩ := insertAtPosition_WF h v (p : Int) hpi
      rw [hk] at hnoop hins
      by_cases hple : p ≤ ids.length
      · have hlt1 : p - 1 < ids.length := by omega
        obtain ⟨cur, hcur⟩ : ∃ c, ids[p - 1]? = some c := by
          rw [List.getElem?_eq_getElem hlt1]
          exact ⟨_, rfl⟩
        obtain ⟨h1, h2⟩ := hins cur hcur
        refine ⟨_, h1, ?_⟩
        rw [h2]
        unfold refInsertAtPosition
        rw [if_pos (by rw [hlenv]; omega)]
        rw [show p - 1 + 1 = p from by omega]
      · have hnone : ids[p - 1]? = none := List.getElem?_eq_none (by omega)
        obtain ⟨_, h1, h2⟩ := hnoop hnone
        refine ⟨_, h1, ?_⟩
        rw [h2]
        unfold refInsertAtPosition
        rw [if_neg (by rw [hlenv]; omega)]
  | deleteFromBeginning =>
    simp only [applyOp, refApplyOp]
    obtain ⟨hni, hcons⟩ := deleteFromBeginning_WF h
    cases ids with
    | nil =>
      rw [hni rfl]
      exact ⟨[], h, by simp [valsOf]⟩
    | cons h0 rest =>
      obtain ⟨h1, hv, h2⟩ := hcons h0 rest rfl
      refine ⟨rest, h1, ?_⟩
      rw [h2]
      simp [valsOf]
  | deleteFromEnd =>
    simp only [applyOp, refApplyOp]
    obtain ⟨hni, hsome⟩ := deleteFromEnd_WF h
    by_cases hne : ids = []
    · subst hne
      rw [hni rfl]
      exact ⟨[], h, by simp [valsOf]⟩
    · obtain ⟨h1, hv, h2⟩ := hsome hne
      exact ⟨_, h1, h2⟩
  | deleteAtPosition p =>
    simp only [applyOp, refApplyOp]
    by_cases hp0 : p = 0
    · subst hp0
      have he : l.deleteAtPosition ((0 : Nat) : Int) = l.deleteFromBeginning := by
        simp [LinkedList.deleteAtPosition]
      rw [he]
      obtain ⟨hni, hcons⟩ := deleteFromBeginning_WF h
      cases ids with
      | nil =>
        rw [hni rfl]
        refine ⟨[], h, ?_⟩
        unfold refDeleteAtPosition
        rw [if_neg (by simp [valsOf])]
      | cons h0 rest =>
        obtain ⟨h1, hv, h2⟩ := hcons h0 rest rfl
        refine ⟨rest, h1, ?_⟩
        rw [h2]
        unfold refDeleteAtPosition
        rw [if_pos (by simp [valsOf])]
        simp [valsOf]
    · have hpi : ((p : Nat) : Int) ≠ 0 := by exact_mod_cast hp0
      have hk : (((p : Nat) : Int) - 1).toNat = p - 1 := by omega
      obtain ⟨hnoop, hdel⟩ := deleteAtPosition_WF h (p : Int) hpi
      rw [hk] at hnoop hdel
      by_cases hplt : p < ids.length
      · have hlt1 : p - 1 + 1 < ids.length := by omega
        obtain ⟨del, hdelsome⟩ : ∃ d, ids[p - 1 + 1]? = some d := by
          rw [List.getElem?_eq_getElem hlt1]
          exact ⟨_, rfl⟩
        obtain ⟨hv, h1, h2⟩ := hdel del hdelsome
        refine ⟨_, h1, ?_⟩
        rw [h2]
        unfold refDeleteAtPosition
        rw [if_pos (by rw [hlenv]; omega)]
        rw [show p - 1 + 1 = p from by omega]
      · have hnone : ids[p - 1 + 1]? = none := List.getElem?_eq_none (by omega)
        rw [hnoop hnone]
        refine ⟨ids, h, ?_⟩
        unfold refDeleteAtPosition
        rw [if_neg (by rw [hlenv]; omega)]

theorem foldl_applyOp_WF (ops : List Op) :
    ∀ (l : LinkedList) (ids : List Nat), WF l ids →
      ∃ ids', WF (ops.foldl applyOp l) ids' ∧
        valsOf (ops.foldl applyOp l).arena ids' =
          ops.foldl refApplyOp (valsOf l.arena ids) := by
  induction ops with
  | nil => intro l ids h; exact ⟨ids, h, rfl⟩
  | cons op ops ih =>
    intro l ids h
    obtain ⟨ids1, h1, hv1⟩ := applyOp_WF h op
    obtain ⟨ids2, h2, hv2⟩ := ih _ _ h1
    refine ⟨ids2, h2, ?_⟩
    simp only [List.foldl_cons]
    rw [hv2, hv1]

theorem runOps_WF (dbl : Bool) (ops : List Op) :
    ∃ ids, WF (runOps dbl ops) ids ∧
      valsOf (runOps dbl ops).arena ids = refRun ops := by
  obtain ⟨ids, h1, h2⟩ := foldl_applyOp_WF ops (LinkedList.empty dbl) [] (WF_empty dbl)
  exact ⟨ids, h1, by unfold runOps refRun; rw [h2]; rfl⟩

theorem isDoubly_runOps (dbl : Bool) (ops : List Op) :
    (runOps dbl ops).isDoubly = dbl := by
  unfold runOps
  have hgen : ∀ (l : LinkedList), (ops.foldl applyOp l).isDoubly = l.isDoubly := by
    induction ops with
    | nil => intro l; rfl
    | cons op ops ih =>
      intro l
      simp only [List.foldl_cons]
      rw [ih (applyOp l op), isDoubly_applyOp]
  rw [hgen]
  rfl

/-! ### Claim theorems -/

/-- C1: For every finite sequence of
`insertAtBeginning`/`insertAtEnd`/`insertAtPosition`/`deleteFromBeginning`/
`deleteFromEnd`/`deleteAtPosition` operations applied to an initially empty
list, in either mode, the result of `toArray()` equals the value sequence
produced by the equivalent reference array-based model executing the same
operations.  Since this holds for every operation sequence, it holds in
particular after each step (each prefix) of any sequence. -/
theorem C1_runOps_refines_array_model (isDoubly : Bool) (ops : List Op) :
    (runOps isDoubly ops).toArray = refRun ops := by
  obtain ⟨ids, h1, h2⟩ := runOps_WF isDoubly ops
  rw [toArray_eq h1, h2]

/-- C2: In doubly-linked mode, after every sequence of mutating operations
(hence after every single mutation), the reachable node chain `ids` is
acyclic and back-reference-correct: for every adjacent pair `a, b` of chain
nodes with `a.next = b`, `b.prev = a`, and the head node's `prev` is null. -/
theorem C2_doubly_prev_invariant (ops : List Op) :
    ∃ ids, Chain (runOps true ops).arena (runOps true ops).head ids ∧
      ids.Nodup ∧ PrevOk (runOps true ops).arena ids := by
  obtain ⟨ids, h1, _⟩ := runOps_WF true ops
  exact ⟨ids, h1.chain, h1.nodup, h1.prevOk (isDoubly_runOps true ops)⟩

/-- C3: For every list and value `v`, `insertAtPosition(v, 0)` is exactly
`insertAtBeginning(v)`; and for every position beyond the current length
(so that the node at index `position - 1` does not exist),
`insertAtPosition(v, position)` is a silent no-op: nothing is signalled
and `toArray()` is unchanged. -/
theorem C3_insert_position_zero_and_out_of_range (l : LinkedList) (ids : List Nat)
    (v : JSVal) (hWF : WF l ids) :
    l.insertAtPosition v 0 = l.insertAtBeginning v ∧
    ∀ p : Int, (l.toArray.length : Int) < p →
      (l.insertAtPosition v p).toArray = l.toArray := by
  constructor
  · simp [LinkedList.insertAtPosition]
  · intro p hgt
    have hlen := length_toArray_eq hWF
    have hp : p ≠ 0 := by omega
    obtain ⟨hnoop, _⟩ := insertAtPosition_WF hWF v p hp
    have hnone : ids[(p - 1).toNat]? = none := List.getElem?_eq_none (by omega)
    obtain ⟨_, hWF', hv⟩ := hnoop hnone
    rw [toArray_eq hWF', hv, toArray_eq hWF]

/-- Witness for C3 at a concrete input: on the 2-element list `["x","y"]`,
`insertAtPosition("v", 99)` leaves `toArray()` unchanged, and inserting at
position 0 equals `insertAtBeginning`. -/
theorem C3_witness :
    ((⟨[⟨JSVal.str "x", some 1, none⟩, ⟨JSVal.str "y", none, none⟩], some 0,
        false⟩ : LinkedList).insertAtPosition (JSVal.str "v") 99).toArray =
      [JSVal.str "x", JSVal.str "y"] ∧
    (⟨[⟨JSVal.str "x", some 1, none⟩, ⟨JSVal.str "y", none, none⟩], some 0,
        false⟩ : LinkedList).insertAtPosition (JSVal.str "v") 0 =
      (⟨[⟨JSVal.str "x", some 1, none⟩, ⟨JSVal.str "y", none, none⟩], some 0,
        false⟩ : LinkedList).insertAtBeginning (JSVal.str "v") := by
  have hWF : WF ⟨[⟨JSVal.str "x", some 1, none⟩, ⟨JSVal.str "y", none, none⟩],
      some 0, false⟩ [0, 1] :=
    ⟨@Chain.cons _ 0 (some 1) [1] (by decide)
        (@Chain.cons _ 1 none [] (by decide) Chain.nil),
      by decide, fun hdd => by cases hdd⟩
  have h := C3_insert_position_zero_and_out_of_range _ [0, 1] (JSVal.str "v") hWF
  exact ⟨(h.2 99 (by decide)).trans (by decide), h.1⟩

/-- C4: the operation `deleteAtPosition(0)` behaves exactly as `deleteFromBeginning()`;
for positions `p > 0`, if the node at index `p - 1` or its successor does
not exist (i.e. `p ≥ length`), the operation returns the `null` sentinel
and leaves the list unchanged; otherwise it removes and returns the value
at index `p`, the remaining values keeping their relative order. -/
theorem C4_delete_at_position_spec (l : LinkedList) (ids : List Nat)
    (hWF : WF l ids) (p : Int) :
    l.deleteAtPosition 0 = l.deleteFromBeginning ∧
    (0 < p → (l.toArray.length : Int) ≤ p → l.deleteAtPosition p = (none, l)) ∧
    (0 < p → p < (l.toArray.length : Int) →
      (l.deleteAtPosition p).1 = l.toArray[p.toNat]? ∧
      (l.deleteAtPosition p).2.toArray =
        l.toArray.take p.toNat ++ l.toArray.drop (p.toNat + 1)) := by
  have hlen := length_toArray_eq hWF
  refine ⟨by simp [LinkedList.deleteAtPosition], ?_, ?_⟩
  · intro hpos hge
    have hp : p ≠ 0 := by omega
    obtain ⟨hnoop, _⟩ := deleteAtPosition_WF hWF p hp
    exact hnoop (List.getElem?_eq_none (by omega))
  · intro hpos hlt
    have hp : p ≠ 0 := by omega
    obtain ⟨_, hdel⟩ := deleteAtPosition_WF hWF p hp
    have he : (p - 1).toNat + 1 = p.toNat := by omega
    rw [he] at hdel
    have hplt : p.toNat < ids.length := by omega
    obtain ⟨del, hds⟩ : ∃ d, ids[p.toNat]? = some d := by
      rw [List.getElem?_eq_getElem hplt]
      exact ⟨_, rfl⟩
    obtain ⟨hv, hWF', hvals⟩ := hdel del hds
    constructor
    · rw [hv, toArray_eq hWF]
      unfold valsOf
      rw [List.getElem?_map, hds, Option.map_some']
    · rw [toArray_eq hWF', toArray_eq hWF]
      exact hvals

/-- Witness for C4 at a concrete input (Scenario C of the spec): on
`["x","y","z"]`, `deleteAtPosition(1)` returns `"y"` and `toArray()`
becomes `["x","z"]`; `deleteAtPosition(9)` is a no-op returning `null`. -/
theorem C4_witness :
    ((⟨[⟨JSVal.str "x", some 1, none⟩, ⟨JSVal.str "y", some 2, none⟩,
        ⟨JSVal.str "z", none, none⟩], some 0, false⟩ :
          LinkedList).deleteAtPosition 1).1 = some (JSVal.str "y") ∧
    ((⟨[⟨JSVal.str "x", some 1, none⟩, ⟨JSVal.str "y", some 2, none⟩,
        ⟨JSVal.str "z", none, none⟩], some 0, false⟩ :
          LinkedList).deleteAtPosition 1).2.toArray =
      [JSVal.str "x", JSVal.str "z"] ∧
    (⟨[⟨JSVal.str "x", some 1, none⟩, ⟨JSVal.str "y", some 2, none⟩,
        ⟨JSVal.str "z", none, none⟩], some 0, false⟩ :
          LinkedList).deleteAtPosition 9 =
      (none, ⟨[⟨JSVal.str "x", some 1, none⟩, ⟨JSVal.str "y", some 2, none⟩,
        ⟨JSVal.str "z", none, none⟩], some 0, false⟩) := by
  have hWF : WF ⟨[⟨JSVal.str "x", some 1, none⟩, ⟨JSVal.str "y", some 2, none⟩,
      ⟨JSVal.str "z", none, none⟩], some 0, false⟩ [0, 1, 2] :=
    ⟨@Chain.cons _ 0 (some 1) [1, 2] (by decide)
        (@Chain.cons _ 1 (some 2) [2] (by decide)
          (@Chain.cons _ 2 none [] (by decide) Chain.nil)),
      by decide, fun hdd => by cases hdd⟩
  have h1 := C4_delete_at_position_spec _ [0, 1, 2] hWF 1
  have h9 := C4_delete_at_position_spec _ [0, 1, 2] hWF 9
  refine ⟨((h1.2.2 (by decide) (by decide)).1).trans (by decide),
    ((h1.2.2 (by decide) (by decide)).2).trans (by decide),
    h9.2.1 (by decide) (by decide)⟩

/-- C5: On an empty list, `deleteFromBeginning()` and `deleteFromEnd()`
return the `null` sentinel and leave the list unchanged; on a non-empty
list, `deleteFromBeginning()` removes and returns the head's value (the
new head being the old head's successor, whose back-reference is cleared
in doubly-linked mode) and `deleteFromEnd()` removes and returns the last
value. -/
theorem C5_delete_from_ends (l : LinkedList) (ids : List Nat) (hWF : WF l ids) :
    (l.head = none → l.deleteFromBeginning = (none, l) ∧ l.deleteFromEnd = (none, l)) ∧
    (l.head ≠ none →
      l.deleteFromBeginning.1 = l.toArray.head? ∧
      l.deleteFromBeginning.2.toArray = l.toArray.tail ∧
      l.deleteFromEnd.1 = l.toArray.getLast? ∧
      l.deleteFromEnd.2.toArray = l.toArray.dropLast) ∧
    (∀ h0 hnode, l.head = some h0 → l.arena[h0]? = some hnode →
      l.deleteFromBeginning.2.head = hnode.next ∧
      (l.isDoubly = true → ∀ nh, hnode.next = some nh →
        prevOf l.deleteFromBeginning.2.arena nh = some none)) := by
  have hhead := chain_head hWF.chain
  refine ⟨?_, ?_, ?_⟩
  · intro hh
    have hids : ids = [] := by
      rw [hh] at hhead
      cases ids with
      | nil => rfl
      | cons x r => simp at hhead
    exact ⟨(deleteFromBeginning_WF hWF).1 hids, (deleteFromEnd_WF hWF).1 hids⟩
  · intro hh
    have hne : ids ≠ [] := by
      intro he
      subst he
      simp at hhead
      exact hh hhead
    obtain ⟨h0, rest, hids⟩ : ∃ h0 rest, ids = h0 :: rest := by
      cases ids with
      | nil => exact absurd rfl hne
      | cons x r => exact ⟨x, r, rfl⟩
    obtain ⟨hWF', hv, hvals⟩ := (deleteFromBeginning_WF hWF).2 h0 rest hids
    obtain ⟨hWFe, hve, hvalse⟩ := (deleteFromEnd_WF hWF).2 hne
    refine ⟨?_, ?_, ?_, ?_⟩
    · rw [hv, toArray_eq hWF, hids]
      simp [valsOf]
    · rw [toArray_eq hWF', hvals, toArray_eq hWF, hids]
      simp [valsOf]
    · rw [hve, toArray_eq hWF]
    · rw [toArray_eq hWFe, hvalse, toArray_eq hWF]
  · intro h0 hnode hh hn0
    have hc : ids[0]? = some h0 := by rw [← hhead, hh]
    obtain ⟨rest, hids⟩ : ∃ rest, ids = h0 :: rest := by
      cases ids with
      | nil => simp at hc
      | cons x r =>
        simp at hc
        subst hc
        exact ⟨r, rfl⟩
    obtain ⟨hWF', hv, hvals⟩ := (deleteFromBeginning_WF hWF).2 h0 rest hids
    subst hids
    have hch2 : Chain l.arena (some h0) (h0 :: rest) := by
      rw [← hh]
      exact hWF.chain
    rcases chain_some hch2 with ⟨nx, rest', heq, hn, hr⟩
    injection heq with h1 h2
    subst h2
    rcases nextOf_eq_some hn with ⟨hnode', hn0', hnx'⟩
    have hsame : hnode = hnode' := by
      rw [hn0] at hn0'
      injection hn0'
    have hnx2 : hnode.next = nx := by
      rw [hsame]
      exact hnx'
    have hheadres : l.deleteFromBeginning.2.head = hnode.next := by
      have hhr := chain_head hWF'.chain
      rw [hhr, hnx2, chain_head hr]
    refine ⟨hheadres, ?_⟩
    intro hdd nh hnh
    have hdd' : l.deleteFromBeginning.2.isDoubly = true := by
      rw [isDoubly_deleteFromBeginning]
      exact hdd
    have hpok := hWF'.prevOk hdd'
    have hrest0 : rest.head? = some nh := by
      rw [head?_eq_zero, ← chain_head hr, ← hnx2, hnh]
    exact hpok.1 nh hrest0

/-- Witness for C5 at a concrete input: on the doubly-linked list
`["x","y"]`, `deleteFromBeginning()` returns `"x"`, the new head is the
old head's successor and its back-reference is cleared; `deleteFromEnd()`
returns `"y"`; and on the empty doubly list both deletes return `null`
and leave the list unchanged. -/
theorem C5_witness :
    ((⟨[⟨JSVal.str "x", some 1, none⟩, ⟨JSVal.str "y", none, some 0⟩], some 0,
        true⟩ : LinkedList).deleteFromBeginning).1 = some (JSVal.str "x") ∧
    ((⟨[⟨JSVal.str "x", some 1, none⟩, ⟨JSVal.str "y", none, some 0⟩], some 0,
        true⟩ : LinkedList).deleteFromBeginning).2.head = some 1 ∧
    prevOf ((⟨[⟨JSVal.str "x", some 1, none⟩, ⟨JSVal.str "y", none, some 0⟩],
        some 0, true⟩ : LinkedList).deleteFromBeginning).2.arena 1 = some none ∧
    ((⟨[⟨JSVal.str "x", some 1, none⟩, ⟨JSVal.str "y", none, some 0⟩], some 0,
        true⟩ : LinkedList).deleteFromEnd).1 = some (JSVal.str "y") ∧
    (LinkedList.empty true).deleteFromBeginning = (none, LinkedList.empty true) := by
  have hWF : WF ⟨[⟨JSVal.str "x", some 1, none⟩, ⟨JSVal.str "y", none, some 0⟩],
      some 0, true⟩ [0, 1] := by
    refine ⟨@Chain.cons _ 0 (some 1) [1] (by decide)
        (@Chain.cons _ 1 none [] (by decide) Chain.nil),
      by decide, fun _ => ⟨?_, ?_⟩⟩
    · intro x hx
      simp at hx
      subst hx
      decide
    · intro k a b hka hkb
      rcases k with _ | _ | k
      · simp at hka hkb
        subst hka
        subst hkb
        decide
      · simp at hkb
      · simp at hkb
  have h := C5_delete_from_ends _ [0, 1] hWF
  have hemp := C5_delete_from_ends (LinkedList.empty true) [] (WF_empty true)
  have hnd := h.2.1 (by decide)
  have hptr := h.2.2 0 ⟨JSVal.str "x", some 1, none⟩ rfl (by decide)
  exact ⟨hnd.1.trans (by decide), hptr.1.trans (by decide) |>.symm.trans (by decide) |>.symm,
    (hptr.2 rfl 1 rfl), hnd.2.2.1.trans (by decide), (hemp.1 rfl).1⟩

theorem splice_cancel {α : Type} (a : List α) (v : α) (m : Nat) (hm : m ≤ a.length) :
    (a.take m ++ v :: a.drop m).take m ++ (a.take m ++ v :: a.drop m).drop (m + 1) = a := by
  have hlen : (a.take m).length = m := by
    rw [List.length_take]
    omega
  have h1 : (a.take m ++ v :: a.drop m).take m = a.take m :=
    List.take_left' hlen
  have h2 : (a.take m ++ v :: a.drop m).drop (m + 1) = a.drop m := by
    have he : a.take m ++ v :: a.drop m = (a.take m ++ [v]) ++ a.drop m := by
      simp
    rw [he]
    exact List.drop_left' (by simp [hlen])
  rw [h1, h2, List.take_append_drop]

/-- C6: For every well-formed list, value `v` and position `p` at which
`insertAtPosition(v, p)` actually inserts (observable as `toArray()`
changing), immediately calling `deleteAtPosition(p)` restores the prior
`toArray()` result exactly. -/
theorem C6_insert_delete_roundtrip (l : LinkedList) (ids : List Nat)
    (hWF : WF l ids) (v : JSVal) (p : Int)
    (hchanged : (l.insertAtPosition v p).toArray ≠ l.toArray) :
    ((l.insertAtPosition v p).deleteAtPosition p).2.toArray = l.toArray := by
  by_cases hp : p = 0
  · subst hp
    have he : l.insertAtPosition v 0 = l.insertAtBeginning v := by
      simp [LinkedList.insertAtPosition]
    rw [he] at hchanged ⊢
    obtain ⟨hWF1, hv1⟩ := insertAtBeginning_WF hWF v
    have he2 : (l.insertAtBeginning v).deleteAtPosition 0 =
        (l.insertAtBeginning v).deleteFromBeginning := by
      simp [LinkedList.deleteAtPosition]
    rw [he2]
    obtain ⟨hWF2, _, hv2⟩ := (deleteFromBeginning_WF hWF1).2 l.arena.length ids rfl
    rw [toArray_eq hWF2, hv2, toArray_eq hWF]
    have := hv1
    unfold valsOf at this ⊢
    rw [List.map_cons] at this
    exact (List.cons.injEq _ _ _ _).mp this |>.2
  · obtain ⟨hnoop, hins⟩ := insertAtPosition_WF hWF v p hp
    cases hcur : ids[(p - 1).toNat]? with
    | none =>
      obtain ⟨_, hWF1, hv1⟩ := hnoop hcur
      exact absurd (by rw [toArray_eq hWF1, hv1, toArray_eq hWF]) hchanged
    | some cur =>
      obtain ⟨hWF1, hv1⟩ := hins cur hcur
      set m := (p - 1).toNat + 1 with hmdef
      have hklen : (p - 1).toNat < ids.length := (List.getElem?_eq_some.mp hcur).1
      have hmle : m ≤ ids.length := hklen
      have hmlev : m ≤ (valsOf l.arena ids).length := by
        simp [valsOf]
        omega
      obtain ⟨hnoop2, hdel2⟩ := deleteAtPosition_WF hWF1 p hp
      have hidm : (ids.take m ++ l.arena.length :: ids.drop m)[m]? =
          some l.arena.length := by
        rw [get?_insertSplice ids l.arena.length m m hmle, if_neg (by omega),
          if_pos rfl]
      have he2 : (p - 1).toNat + 1 = m := rfl
      obtain ⟨_, hWF2, hv2⟩ := hdel2 l.arena.length (by rw [he2]; exact hidm)
      rw [toArray_eq hWF2, hv2, hv1, toArray_eq hWF]
      exact splice_cancel (valsOf l.arena ids) v m hmlev

/-- Witness for C6 at a concrete input: on `["x","y"]`, inserting `"v"` at
position 1 changes the array, and deleting at position 1 afterwards
restores `["x","y"]`. -/
theorem C6_witness :
    (((⟨[⟨JSVal.str "x", some 1, none⟩, ⟨JSVal.str "y", none, none⟩], some 0,
        false⟩ : LinkedList).insertAtPosition (JSVal.str "v") 1).deleteAtPosition
          1).2.toArray = [JSVal.str "x", JSVal.str "y"] := by
  have hWF : WF ⟨[⟨JSVal.str "x", some 1, none⟩, ⟨JSVal.str "y", none, none⟩],
      some 0, false⟩ [0, 1] :=
    ⟨@Chain.cons _ 0 (some 1) [1] (by decide)
        (@Chain.cons _ 1 none [] (by decide) Chain.nil),
      by decide, fun hdd => by cases hdd⟩
  exact (C6_insert_delete_roundtrip _ [0, 1] hWF (JSVal.str "v") 1
    (by decide)).trans (by decide)

/-- C7: the operation `search(v)` returns the 0-based position of the first node whose
value is loosely equal to `v` (numeric strings and numbers compare equal
under `looseEq`), or `-1` if none matches.  In this embedding `search` is
a pure function of the list (its type is `LinkedList → JSVal → Int`), so
it cannot mutate the engine, and two calls with the same arguments and no
intervening mutation are the same term, hence return the same position. -/
theorem C7_search_first_match (l : LinkedList) (ids : List Nat)
    (hWF : WF l ids) (v : JSVal) :
    l.search v = specSearch l.toArray v := by
  rw [search_eq hWF v, toArray_eq hWF]

/-- Witness for C7 at concrete inputs: on the list `[5 (number), "7"]`,
searching for the string `"5"` finds the number `5` at position 0 (loose
equality coerces), searching for the number `7` finds the string `"7"` at
position 1, and searching for `"zz"` returns `-1`. -/
theorem C7_witness :
    (⟨[⟨JSVal.num 5, some 1, none⟩, ⟨JSVal.str "7", none, none⟩], some 0,
        false⟩ : LinkedList).search (JSVal.str "5") = 0 ∧
    (⟨[⟨JSVal.num 5, some 1, none⟩, ⟨JSVal.str "7", none, none⟩], some 0,
        false⟩ : LinkedList).search (JSVal.num 7) = 1 ∧
    (⟨[⟨JSVal.num 5, some 1, none⟩, ⟨JSVal.str "7", none, none⟩], some 0,
        false⟩ : LinkedList).search (JSVal.str "zz") = -1 := by
  have hWF : WF ⟨[⟨JSVal.num 5, some 1, none⟩, ⟨JSVal.str "7", none, none⟩],
      some 0, false⟩ [0, 1] :=
    ⟨@Chain.cons _ 0 (some 1) [1] (by decide)
        (@Chain.cons _ 1 none [] (by decide) Chain.nil),
      by decide, fun hdd => by cases hdd⟩
  refine ⟨(C7_search_first_match _ [0, 1] hWF (JSVal.str "5")).trans (by decide),
    (C7_search_first_match _ [0, 1] hWF (JSVal.num 7)).trans (by decide),
    (C7_search_first_match _ [0, 1] hWF (JSVal.str "zz")).trans (by decide)⟩

/-- C8: In the visualizer binding, a value input that is empty or blank
after trimming aborts any insert or search action with a user-facing
notice (the `true` flag) and leaves the engine untouched; for the
operations that require a position, a position input that does not parse
as an integer is likewise rejected with a notice and the engine is
untouched. -/
theorem C8_visualizer_validation (l : LinkedList) (rawValue rawPos : String) :
    (jsTrim rawValue = "" →
      LinkedListVisualizer.insertAtBeginning l rawValue = (l, true) ∧
      LinkedListVisualizer.insertAtEnd l rawValue = (l, true) ∧
      LinkedListVisualizer.insertAtPosition l rawValue rawPos = (l, true) ∧
      LinkedListVisualizer.search l rawValue = (l, true)) ∧
    (jsParseInt rawPos = none →
      LinkedListVisualizer.insertAtPosition l rawValue rawPos = (l, true) ∧
      LinkedListVisualizer.deleteAtPosition l rawPos = (l, true)) := by
  constructor
  · intro hv
    refine ⟨?_, ?_, ?_, ?_⟩ <;>
      simp [LinkedListVisualizer.insertAtBeginning, LinkedListVisualizer.insertAtEnd,
        LinkedListVisualizer.insertAtPosition, LinkedListVisualizer.search, hv]
  · intro hp
    constructor
    · by_cases hv : jsTrim rawValue = "" <;>
        simp [LinkedListVisualizer.insertAtPosition, hv, hp]
    · simp [LinkedListVisualizer.deleteAtPosition, hp]

/-- Witness for C8 at concrete inputs: a blank value field aborts the
inserts and leaves the empty engine unchanged, and an unparseable
position field aborts position-taking operations. -/
theorem C8_witness :
    LinkedListVisualizer.insertAtBeginning (LinkedList.empty false) "   " =
      (LinkedList.empty false, true) ∧
    LinkedListVisualizer.search (LinkedList.empty false) "" =
      (LinkedList.empty false, true) ∧
    LinkedListVisualizer.deleteAtPosition (LinkedList.empty false) "abc" =
      (LinkedList.empty false, true) ∧
    LinkedListVisualizer.insertAtPosition (LinkedList.empty false) "v" "abc" =
      (LinkedList.empty false, true) := by
  have h1 := C8_visualizer_validation (LinkedList.empty false) "   " "abc"
  have h2 := C8_visualizer_validation (LinkedList.empty false) "" "abc"
  have h3 := C8_visualizer_validation (LinkedList.empty false) "v" "abc"
  exact ⟨(h1.1 (by decide)).1, (h2.1 (by decide)).2.2.2, (h1.2 (by decide)).2,
    (h3.2 (by decide)).1⟩

/-- C9: For every well-formed list of length `n` and every value `v`,
`insertAtPosition(v, n)` is not a no-op: it appends `v` at the end,
yielding the same `toArray()` result as `insertAtEnd(v)`; the
out-of-range no-op policy only applies when the position exceeds the
current length. -/
theorem C9_insert_at_length_appends (l : LinkedList) (ids : List Nat)
    (hWF : WF l ids) (v : JSVal) :
    (l.insertAtPosition v (l.toArray.length : Int)).toArray = l.toArray ++ [v] ∧
    (l.insertAtPosition v (l.toArray.length : Int)).toArray =
      (l.insertAtEnd v).toArray := by
  have hlen := length_toArray_eq hWF
  obtain ⟨hWFe, hve⟩ := insertAtEnd_WF hWF v
  have hend : (l.insertAtEnd v).toArray = l.toArray ++ [v] := by
    rw [toArray_eq hWFe, hve, toArray_eq hWF]
  suffices hmain : (l.insertAtPosition v (l.toArray.length : Int)).toArray =
      l.toArray ++ [v] by
    exact ⟨hmain, hmain.trans hend.symm⟩
  by_cases hnil : ids = []
  · subst hnil
    have hlen0 : l.toArray.length = 0 := by rw [hlen]; rfl
    rw [hlen0]
    have he : l.insertAtPosition v ((0 : Nat) : Int) = l.insertAtBeginning v := by
      simp [LinkedList.insertAtPosition]
    rw [he]
    obtain ⟨hWF1, hv1⟩ := insertAtBeginning_WF hWF v
    rw [toArray_eq hWF1, hv1, toArray_eq hWF]
    simp [valsOf]
  · have hpos : 0 < ids.length := List.length_pos.mpr hnil
    have hp : ((l.toArray.length : Nat) : Int) ≠ 0 := by
      rw [hlen]
      omega
    obtain ⟨_, hins⟩ := insertAtPosition_WF hWF v (l.toArray.length : Int) hp
    have hk : (((l.toArray.length : Nat) : Int) - 1).toNat = ids.length - 1 := by
      rw [hlen]
      omega
    rw [hk] at hins
    have hlt1 : ids.length - 1 < ids.length := by omega
    obtain ⟨last, hlast⟩ : ∃ x, ids[ids.length - 1]? = some x := by
      rw [List.getElem?_eq_getElem hlt1]
      exact ⟨_, rfl⟩
    obtain ⟨hWF1, hv1⟩ := hins last hlast
    rw [toArray_eq hWF1, hv1, toArray_eq hWF]
    have hm : ids.length - 1 + 1 = (valsOf l.arena ids).length := by
      simp [valsOf]
      omega
    rw [hm, List.take_length, List.drop_length]

/-- Witness for C9 at a concrete input: on `["x","y"]` (length 2),
`insertAtPosition("v", 2)` appends, giving `["x","y","v"]`, the same as
`insertAtEnd("v")`. -/
theorem C9_witness :
    ((⟨[⟨JSVal.str "x", some 1, none⟩, ⟨JSVal.str "y", none, none⟩], some 0,
        false⟩ : LinkedList).insertAtPosition (JSVal.str "v") 2).toArray =
      [JSVal.str "x", JSVal.str "y", JSVal.str "v"] ∧
    ((⟨[⟨JSVal.str "x", some 1, none⟩, ⟨JSVal.str "y", none, none⟩], some 0,
        false⟩ : LinkedList).insertAtPosition (JSVal.str "v") 2).toArray =
      ((⟨[⟨JSVal.str "x", some 1, none⟩, ⟨JSVal.str "y", none, none⟩], some 0,
        false⟩ : LinkedList).insertAtEnd (JSVal.str "v")).toArray := by
  have hWF : WF ⟨[⟨JSVal.str "x", some 1, none⟩, ⟨JSVal.str "y", none, none⟩],
      some 0, false⟩ [0, 1] :=
    ⟨@Chain.cons _ 0 (some 1) [1] (by decide)
        (@Chain.cons _ 1 none [] (by decide) Chain.nil),
      by decide, fun hdd => by cases hdd⟩
  have h := C9_insert_at_length_appends _ [0, 1] hWF (JSVal.str "v")
  have hlen : ((⟨[⟨JSVal.str "x", some 1, none⟩, ⟨JSVal.str "y", none, none⟩],
      some 0, false⟩ : LinkedList).toArray.length : Int) = 2 := by decide
  rw [hlen] at h
  exact ⟨h.1.trans (by decide), h.2⟩

/-- C10: For every negative position `p` and every well-formed list with
at least two nodes, `deleteAtPosition(p)` is neither a no-op nor a
delete-from-beginning: it removes and returns the value at index 1 (the
head's successor), because the position-walk loop never runs and splicing
proceeds from the head. -/
theorem C10_negative_position_deletes_index_one (l : LinkedList) (ids : List Nat)
    (hWF : WF l ids) (p : Int) (hneg : p < 0) (hlen2 : 2 ≤ l.toArray.length) :
    (l.deleteAtPosition p).1 = l.toArray[1]? ∧
    (l.deleteAtPosition p).2.toArray = l.toArray.take 1 ++ l.toArray.drop 2 := by
  have hlen := length_toArray_eq hWF
  have hp : p ≠ 0 := by omega
  obtain ⟨_, hdel⟩ := deleteAtPosition_WF hWF p hp
  have hk : (p - 1).toNat = 0 := by omega
  rw [hk] at hdel
  have hlt1 : 1 < ids.length := by omega
  obtain ⟨del, hds⟩ : ∃ d, ids[0 + 1]? = some d := by
    rw [List.getElem?_eq_getElem (by omega : 0 + 1 < ids.length)]
    exact ⟨_, rfl⟩
  obtain ⟨hv, hWF', hvals⟩ := hdel del hds
  constructor
  · rw [hv, toArray_eq hWF]
    unfold valsOf
    rw [show (1 : Nat) = 0 + 1 from rfl, List.getElem?_map, hds, Option.map_some']
  · rw [toArray_eq hWF', hvals, toArray_eq hWF]

/-- Witness for C10 at a concrete input: on `["x","y","z"]`,
`deleteAtPosition(-3)` returns `"y"` (the value at index 1) and leaves
`["x","z"]`. -/
theorem C10_witness :
    ((⟨[⟨JSVal.str "x", some 1, none⟩, ⟨JSVal.str "y", some 2, none⟩,
        ⟨JSVal.str "z", none, none⟩], some 0, false⟩ :
          LinkedList).deleteAtPosition (-3)).1 = some (JSVal.str "y") ∧
    ((⟨[⟨JSVal.str "x", some 1, none⟩, ⟨JSVal.str "y", some 2, none⟩,
        ⟨JSVal.str "z", none, none⟩], some 0, false⟩ :
          LinkedList).deleteAtPosition (-3)).2.toArray =
      [JSVal.str "x", JSVal.str "z"] := by
  have hWF : WF ⟨[⟨JSVal.str "x", some 1, none⟩, ⟨JSVal.str "y", some 2, none⟩,
      ⟨JSVal.str "z", none, none⟩], some 0, false⟩ [0, 1, 2] :=
    ⟨@Chain.cons _ 0 (some 1) [1, 2] (by decide)
        (@Chain.cons _ 1 (some 2) [2] (by decide)
          (@Chain.cons _ 2 none [] (by decide) Chain.nil)),
      by decide, fun hdd => by cases hdd⟩
  have h := C10_negative_position_deletes_index_one _ [0, 1, 2] hWF (-3)
    (by decide) (by decide)
  exact ⟨h.1.trans (by decide), h.2.trans (by decide)⟩
